import Mathlib

/-!
# Roland graph client: connection state, records, metadata

A shallow embedding of the Go packages `graph` (conn.go, result.go),
`meta` (meta.go, model.go) and `plan` (plan.go), followed by the properties
proved of them.
The definitions come first: the embedding of the source, the payload of
`apoc.meta.schema` in the words of the specification, and sample inputs.

Conventions of the embedding.

* A Go value of type `any` is a term of `Any`; the nil interface is `Any.nil`.
* A Go `map[string]V` is an association list `List (String × V)`.  The order
  of the list is the order in which a `range` loop visits the entries, which
  Go leaves unspecified; indexing returns the first entry with the key, and
  a Go map never holds one key twice (`List.Nodup` of the keys).
* A function that can panic (nil dereference, failed type assertion, index
  out of range) returns `Option`: `none` is the panic.
* The driver is an external collaborator.  `neo4j.Driver` records what it
  answers to each request, together with the history of the sessions that
  were opened on it and of the work sent through them.
* Go compares strings byte by byte; on UTF-8 this is the lexicographic order
  of the code points, which `strLess` computes.
-/

namespace Roland

/-! ## Dynamic values -/

/-- Go values of interface type `any`, as far as the driver produces them. -/
inductive Any where
  | nil
  | bool (b : Bool)
  | int64 (n : Int)
  | str (s : String)
  | list (xs : List Any)
  | map (kvs : List (String × Any))

/-- Type assertion `v.(map[string]any)`. -/
def Any.asMap : Any → Option (List (String × Any))
  | .map kvs => some kvs
  | _ => none

/-- Type assertion `v.(bool)`. -/
def Any.asBool : Any → Option Bool
  | .bool b => some b
  | _ => none

/-- Type assertion `v.(string)`. -/
def Any.asString : Any → Option String
  | .str s => some s
  | _ => none

/-- Type assertion `v.(int64)`. -/
def Any.asInt64 : Any → Option Int
  | .int64 n => some n
  | _ => none

/-- Interface comparison `v == s` against a string constant: true when the
dynamic type is `string` and the value is `s`. -/
def Any.eqString : Any → String → Bool
  | .str t, s => decide (t = s)
  | _, _ => false

/-- Index expression `m[k]` on a `map[string]any`: the nil interface when the
key is absent. -/
def mapIndex (m : List (String × Any)) (k : String) : Any :=
  match m.lookup k with
  | some v => v
  | none => Any.nil

/-- Assignment `m[k] = v` on a Go map: overwrite the entry of `k`, or add one. -/
def mapSet {α : Type} : List (String × α) → String → α → List (String × α)
  | [], k, v => [(k, v)]
  | (k0, v0) :: rest, k, v =>
    if k0 = k then (k0, v) :: rest else (k0, v0) :: mapSet rest k v

/-! ## Strings -/

/-- Lexicographic comparison of code point sequences. -/
def charsLess : List Char → List Char → Bool
  | [], [] => false
  | [], _ :: _ => true
  | _ :: _, [] => false
  | a :: as, b :: bs =>
    if a.toNat < b.toNat then true
    else if b.toNat < a.toNat then false
    else charsLess as bs

/-- Go `a < b` on strings. -/
def strLess (a b : String) : Bool := charsLess a.data b.data

/-- Cypher `toLower`, on the letters A to Z. -/
def toLower (s : String) : String := String.mk (s.data.map Char.toLower)

/-! ## The driver (external collaborator) -/

namespace neo4j

/-- An error of the driver.  `neo4j title msg` is an error in which
`errors.As` finds a `*neo4j.Neo4jError` whose `Title()` is `title`;
`other` is every error in which it finds none. -/
inductive Error where
  | neo4j (title : String) (msg : String)
  | other (msg : String)
deriving DecidableEq, Repr

/-- A transaction handle: what the driver answers to `Commit` and
`Rollback` on it. -/
structure Transaction where
  id : Nat
  commitErr : Option Error
  rollbackErr : Option Error
deriving DecidableEq, Repr

/-- Commit of the driver transaction. -/
def Transaction.Commit (tx : Transaction) : Option Error := tx.commitErr

/-- Rollback of the driver transaction. -/
def Transaction.Rollback (tx : Transaction) : Option Error := tx.rollbackErr

/-- The `db.Record` of the driver. -/
structure Record where
  Values : List Any
  Keys : List String

/-- The `neo4j.AuthToken` of the driver. -/
structure AuthToken where
  Tokens : List (String × String)
deriving DecidableEq, Repr

/-- The `neo4j.SessionConfig` of the driver, reduced to the field in use. -/
structure SessionConfig where
  DatabaseName : String
deriving DecidableEq, Repr

/-- A session: the database it is scoped to. -/
structure Session where
  DatabaseName : String
deriving DecidableEq, Repr

/-- One entry of the history of a driver. -/
inductive Call where
  | newSession (db : String)
  | beginTransaction (db : String)
  | readTransaction (db : String) (stmt : String)
  | run (db : String) (stmt : String)
deriving DecidableEq, Repr

/-- A driver handle: its answers, by database and statement, and the
history of the sessions opened on it and of the work sent through them. -/
structure Driver where
  closeErr : Option Error
  beginAnswer : String → Except Error Transaction
  readAnswer : String → String → Option Error
  runAnswer : String → String → Except Error (List Record)
  issued : List Call

/-- Close of the driver: the error, if any. -/
def Driver.Close (d : Driver) : Option Error := d.closeErr

/-- NewSession of the driver. -/
def Driver.NewSession (d : Driver) (cfg : SessionConfig) : Driver × Session :=
  ({ d with issued := d.issued ++ [Call.newSession cfg.DatabaseName] },
   { DatabaseName := cfg.DatabaseName })

/-- BeginTransaction of a session: the transaction, or nil and the error. -/
def Driver.BeginTransaction (d : Driver) (s : Session) :
    Driver × Option Transaction × Option Error :=
  let d1 := { d with issued := d.issued ++ [Call.beginTransaction s.DatabaseName] }
  match d.beginAnswer s.DatabaseName with
  | .ok tx => (d1, some tx, none)
  | .error e => (d1, none, some e)

/-- ReadTransaction of a session whose work function runs one statement. -/
def Driver.ReadTransaction (d : Driver) (s : Session) (stmt : String) :
    Driver × Option Error :=
  ({ d with issued := d.issued ++ [Call.readTransaction s.DatabaseName stmt] },
   d.readAnswer s.DatabaseName stmt)

/-- Run of a session: the records the result will yield, or nil and the
error. -/
def Driver.Run (d : Driver) (s : Session) (stmt : String) :
    Driver × Except Error (List Record) :=
  ({ d with issued := d.issued ++ [Call.run s.DatabaseName stmt] },
   d.runAnswer s.DatabaseName stmt)

/-- Single of a result: the only record, an error for none or several. -/
def Single : List Record → Except Error Record
  | [r] => .ok r
  | [] => .error (Error.other "Result contains no more records")
  | _ :: _ :: _ => .error (Error.other "Result contains more than one record")

end neo4j

/-! ## graph/result.go -/

/-- Result is an alias for Record with additional convenience methods. -/
structure Result where
  Values : List Any
  Keys : List String

/-- The zero value of `Result`. -/
def Result.empty : Result := { Values := [], Keys := [] }

/-- Add appends a new key-value pair to this Result. -/
def Result.Add (r : Result) (key : String) (val : Any) : Result :=
  { Keys := r.Keys ++ [key], Values := r.Values ++ [val] }

/-- The `range r.Keys` loop of `Index`, entered at position `i`. -/
def Result.indexLoop (key : String) : List String → Int → Int
  | [], _ => -1
  | k :: ks, i => if k = key then i else Result.indexLoop key ks (i + 1)

/-- Index returns the position of the given key. -/
def Result.Index (r : Result) (key : String) : Int :=
  Result.indexLoop key r.Keys 0

/-- Value returns the value for the given key; `none` is the panic of an
index out of range. -/
def Result.Value (r : Result) (key : String) : Option (Any × Bool) :=
  let idx := r.Index key
  if idx < 0 then some (Any.nil, false)
  else
    match r.Values[idx.toNat]? with
    | some v => some (v, true)
    | none => none

/-- The Result after adding the pairs one at a time to the empty Result. -/
def Result.addAll (pairs : List (String × Any)) : Result :=
  pairs.foldl (fun r p => r.Add p.1 p.2) Result.empty

/-! ## graph/conn.go -/

/-- The name of the system database. -/
def SystemDB : String := "system"

/-- Conn represents a database connection, which can open multiple Sessions. -/
structure Conn where
  Driver : Option neo4j.Driver
  user : String
  auth : neo4j.AuthToken
  DBName : String
  Tx : Option neo4j.Transaction
  Params : List (String × Any)

/-- Session creates a new Session: the driver afterwards and the session;
`none` when the driver handle is nil. -/
def Conn.Session (c : Conn) : Option (neo4j.Driver × neo4j.Session) :=
  match c.Driver with
  | none => none
  | some d => some (d.NewSession { DatabaseName := c.DBName })

/-- GetTransaction returns the current Transaction or creates a new one. -/
def Conn.GetTransaction (c : Conn) :
    Option (Conn × Option neo4j.Transaction × Bool × Option neo4j.Error) :=
  match c.Tx with
  | none =>
    match c.Session with
    | none => none
    | some (d, s) =>
      match d.BeginTransaction s with
      | (d1, tx, err) => some ({ c with Driver := some d1, Tx := tx }, tx, true, err)
  | some tx => some (c, some tx, false, none)

/-- Commit commits the current Transaction. -/
def Conn.Commit (c : Conn) : Conn × Bool × Option neo4j.Error :=
  match c.Tx with
  | some tx =>
    let err := tx.Commit
    ({ c with Tx := none }, err.isSome, err)
  | none => (c, false, none)

/-- Rollback rolls back the current Transaction. -/
def Conn.Rollback (c : Conn) : Conn × Bool × Option neo4j.Error :=
  match c.Tx with
  | some tx =>
    let err := tx.Rollback
    ({ c with Tx := none }, err.isSome, err)
  | none => (c, false, none)

/-- UseDB permanently changes the database. -/
def Conn.UseDB (c : Conn) (dbName : String) : Option (Conn × Option neo4j.Error) :=
  match c.Rollback with
  | (c1, _, some err) => some (c1, some err)
  | (c1, _, none) =>
    let currDBName := c1.DBName
    let c2 := { c1 with DBName := dbName }
    match c2.Session with
    | none => none
    | some (d, s) =>
      match d.ReadTransaction s "CALL db.ping()" with
      | (d1, err) =>
        let c3 := { c2 with Driver := some d1 }
        match err with
        | some (neo4j.Error.neo4j title msg) =>
          if title = "CredentialsExpired" ∧ dbName = SystemDB then some (c3, none)
          else some (c3, some (neo4j.Error.neo4j title msg))
        | some (neo4j.Error.other msg) =>
          some ({ c3 with DBName := currDBName }, some (neo4j.Error.other msg))
        | none => some (c3, none)

/-- Close the driver and all underlying connections. -/
def Conn.Close (c : Conn) : Conn × Option neo4j.Error :=
  match c.Driver with
  | some d =>
    match d.Close with
    | none => ({ c with Driver := none, Tx := none, Params := [], DBName := "" }, none)
    | some err => (c, some err)
  | none => (c, none)

/-- The process-wide state of package graph: the connections allocated so
far, a `*Conn` being a position in `conns`, and the variable `defConn`
that holds the default database connection. -/
structure Process where
  conns : List Conn
  defConn : Option Nat

/-- IsConnected returns whether the database connection is established. -/
def IsConnected (p : Process) : Bool :=
  match p.defConn with
  | none => false
  | some a =>
    match p.conns[a]? with
    | some c => decide (c.DBName ≠ "")
    | none => false

/-- GetConn returns the default connection, regardless of its connection
state; `none` is the panic when there is no connection. -/
def GetConn (p : Process) : Option Nat := p.defConn

/-- The literal `&Conn{Driver: d, user: user, auth: auth, DBName: dbName,
Params: make(map[string]any)}` of NewConn. -/
def newConnLiteral (d : neo4j.Driver) (user : String) (auth : neo4j.AuthToken)
    (dbName : String) : Conn :=
  { Driver := some d, user := user, auth := auth, DBName := dbName, Tx := none, Params := [] }

/-- NewConn creates a new Neo4j Driver and returns the new Conn.
`newDriver` is what `neo4j.NewDriver` answers for the address and the token
(and the options, which only it reads).  The result is the process
afterwards, the pointer returned (nil when no driver was created) and the
error. -/
def NewConn (newDriver : String → neo4j.AuthToken → Except neo4j.Error neo4j.Driver)
    (p : Process) (addr : String) (user : String) (auth : neo4j.AuthToken) (dbName : String) :
    Option (Process × Option Nat × Option neo4j.Error) :=
  match newDriver addr auth with
  | .error err => some (p, none, some err)
  | .ok d =>
    let p1 : Process := { p with defConn := none }
    let conn : Conn := newConnLiteral d user auth dbName
    match conn.UseDB dbName with
    | none => none
    | some (conn1, err) =>
      let a := p1.conns.length
      let p2 : Process := { p1 with conns := p1.conns ++ [conn1] }
      match err with
      | none => some ({ p2 with defConn := some a }, some a, none)
      | some e => some (p2, some a, some e)

/-! ## Library functions of Go used by meta.go -/

/-- The loop of `sort.Search` on the bounds `i` and `j`; each round shrinks
`j - i`, so `fuel` rounds suffice when `j - i ≤ fuel`. -/
def searchLoop (f : Nat → Bool) : Nat → Nat → Nat → Nat
  | 0, i, _ => i
  | fuel + 1, i, j =>
    if i < j then
      let h := (i + j) / 2
      if !f h then searchLoop f fuel (h + 1) j else searchLoop f fuel i h
    else i

/-- Go `sort.Search(n, f)`. -/
def sortSearch (n : Nat) (f : Nat → Bool) : Nat := searchLoop f n 0 n

/-- Go `slices.Compare` on slices of strings. -/
def slicesCompare : List String → List String → Int
  | [], [] => 0
  | [], _ :: _ => -1
  | _ :: _, [] => 1
  | v1 :: s1, v2 :: s2 =>
    if strLess v1 v2 then -1
    else if strLess v2 v1 then 1
    else slicesCompare s1 s2

/-- Go `slices.SortFunc(x, less)`: the elements in ascending order of `less`. -/
def sortFunc {α : Type} (less : α → α → Bool) (x : List α) : List α :=
  x.insertionSort (fun a b => less b a = false)

/-- Go `sort.Strings(x)`. -/
def sortStrings (x : List String) : List String := sortFunc strLess x

/-! ## meta/model.go -/

/-- Func represents a function or procedure with its name and signature. -/
inductive Func where
  | mk (Name : String) (Sig : String) (RetItems : List Func)

/-- The field `Name`. -/
def Func.Name : Func → String
  | .mk n _ _ => n

/-- The field `Sig`. -/
def Func.Sig : Func → String
  | .mk _ s _ => s

/-- RelProperty represents a single property of a Relationship; `Typ` is
the Go field `Type`. -/
structure RelProperty where
  Array : Bool
  Indexed : Bool
  Existence : Bool
  Typ : String
deriving DecidableEq, Repr

/-- NodeProperty represents a single property of a Node. -/
structure NodeProperty where
  Indexed : Bool
  Unique : Bool
  Existence : Bool
  Typ : String
deriving DecidableEq, Repr

/-- NodeRelInfo describes a Relationship type of one kind of nodes. -/
structure NodeRelInfo where
  Count : Int
  Properties : List (String × RelProperty)
  Direction : String
  Labels : List String
deriving DecidableEq, Repr

/-- Node describes the metamodel of a kind of nodes. -/
structure Node where
  Count : Int
  Relationships : List (String × NodeRelInfo)
  Typ : String
  Properties : List (String × NodeProperty)
  Labels : List String
deriving DecidableEq, Repr

/-- Relationship describes the metamodel of one kind of relationships. -/
structure Relationship where
  Count : Int
  Typ : String
  Properties : List (String × RelProperty)
deriving DecidableEq, Repr

/-! ## meta/meta.go -/

/-- Metadata holds information about nodes, relationships, properties,
functions and procedures. -/
structure Metadata where
  Nodes : List Node
  Rels : List Relationship
  Funcs : List Func
  Procs : List Func
  Props : List String

/-- The zero value of `Metadata`. -/
def Metadata.zero : Metadata :=
  { Nodes := [], Rels := [], Funcs := [], Procs := [], Props := [] }

/-- The expression `res.Record().Values[0].(string)` on one record. -/
def firstString (r : neo4j.Record) : Option String :=
  match r.Values[0]? with
  | some v => v.asString
  | none => none

/-- The loop `for res.Next()` that reads the first value of every record as
a string. -/
def firstStrings : List neo4j.Record → Option (List String)
  | [] => some []
  | r :: rest =>
    match firstString r with
    | none => none
    | some s =>
      match firstStrings rest with
      | none => none
      | some ss => some (s :: ss)

/-- The loop of `listFuncs`: one Func per record, appended to `funcs`. -/
def listFuncsLoop : List neo4j.Record → List Func → Option (List Func)
  | [], funcs => some funcs
  | r :: rest, funcs =>
    match r.Values[0]?, r.Values[1]? with
    | some v0, some v1 =>
      match v0.asString, v1.asString with
      | some name, some sig => listFuncsLoop rest (funcs ++ [Func.mk name sig []])
      | _, _ => none
    | _, _ => none

/-- The function listFuncs runs a Cypher statement to list certain functions
or procedures. -/
def listFuncs (c : Conn) (cyp : String) :
    Option (Conn × List Func × Option neo4j.Error) :=
  match c.Session with
  | none => none
  | some (d, s) =>
    match d.Run s cyp with
    | (d1, .error err) => some ({ c with Driver := some d1 }, [], some err)
    | (d1, .ok rows) =>
      match listFuncsLoop rows [] with
      | none => none
      | some funcs => some ({ c with Driver := some d1 }, funcs, none)

/-- The statement of fetchSimple that lists the labels. -/
def cypLs : String := "CALL db.labels() YIELD label RETURN label ORDER BY label"

/-- The statement of fetchSimple that lists the relationship types. -/
def cypRels : String :=
  "CALL db.relationshipTypes() YIELD relationshipType RETURN relationshipType ORDER BY relationshipType"

/-- The statement of fetchSimple that lists the property keys. -/
def cypProps : String :=
  "CALL db.propertyKeys() YIELD propertyKey RETURN propertyKey ORDER BY propertyKey"

/-- One statement of fetchSimple whose error is dropped: the result is nil
after an error, and `res.Next()` on it panics. -/
def runStrings (c : Conn) (cyp : String) : Option (Conn × List String) :=
  match c.Session with
  | none => none
  | some (d, s) =>
    match d.Run s cyp with
    | (_, .error _) => none
    | (d1, .ok rows) =>
      match firstStrings rows with
      | none => none
      | some ss => some ({ c with Driver := some d1 }, ss)

/-- The literal `Node{Labels: []string{l}}` of fetchSimple. -/
def labelNode (l : String) : Node :=
  { Count := 0, Relationships := [], Typ := "", Properties := [], Labels := [l] }

/-- The literal `Relationship{Type: t}` of fetchSimple. -/
def typeRel (t : String) : Relationship :=
  { Count := 0, Typ := t, Properties := [] }

/-- The function fetchSimple loads labels, relationship types and
properties. -/
def fetchSimple (c : Conn) (m : Metadata) :
    Option (Conn × Metadata × Option neo4j.Error) :=
  match c.Session with
  | none => none
  | some (d, s) =>
    match d.Run s cypLs with
    | (d1, .error err) => some ({ c with Driver := some d1 }, m, some err)
    | (d1, .ok rows) =>
      match firstStrings rows with
      | none => none
      | some ls =>
        let c1 := { c with Driver := some d1 }
        let m1 := { m with Nodes := m.Nodes ++ ls.map labelNode }
        match runStrings c1 cypRels with
        | none => none
        | some (c2, ts) =>
          let m2 := { m1 with Rels := m1.Rels ++ ts.map typeRel }
          match runStrings c2 cypProps with
          | none => none
          | some (c3, ps) => some (c3, { m2 with Props := m2.Props ++ ps }, none)

/-- The NodeProperty literal of apocMetaSchema, decoded from one property
descriptor `pm`. -/
def nodeProperty (pm : Any) : Option NodeProperty :=
  match pm.asMap with
  | none => none
  | some pi =>
    match (mapIndex pi "indexed").asBool, (mapIndex pi "unique").asBool,
        (mapIndex pi "existence").asBool, (mapIndex pi "type").asString with
    | some i, some u, some e, some t =>
      some { Indexed := i, Unique := u, Existence := e, Typ := t }
    | _, _, _, _ => none

/-- The RelProperty literal of apocMetaSchema, decoded from one property
descriptor `pm`. -/
def relProperty (pm : Any) : Option RelProperty :=
  match pm.asMap with
  | none => none
  | some ri =>
    match (mapIndex ri "array").asBool, (mapIndex ri "indexed").asBool,
        (mapIndex ri "existence").asBool, (mapIndex ri "type").asString with
    | some a, some i, some e, some t =>
      some { Array := a, Indexed := i, Existence := e, Typ := t }
    | _, _, _, _ => none

/-- The loop over the properties of a node entry: fills `props` and
`allProps`. -/
def nodePropsLoop : List (String × Any) → List (String × NodeProperty) →
    List (String × Any) → Option (List (String × NodeProperty) × List (String × Any))
  | [], props, allProps => some (props, allProps)
  | (n, pm) :: rest, props, allProps =>
    match nodeProperty pm with
    | none => none
    | some p => nodePropsLoop rest (mapSet props n p) (mapSet allProps n Any.nil)

/-- The loop over the properties of a relationship entry: fills `props` and
`allProps`. -/
def relPropsLoop : List (String × Any) → List (String × RelProperty) →
    List (String × Any) → Option (List (String × RelProperty) × List (String × Any))
  | [], props, allProps => some (props, allProps)
  | (n, pm) :: rest, props, allProps =>
    match relProperty pm with
    | none => none
    | some p => relPropsLoop rest (mapSet props n p) (mapSet allProps n Any.nil)

/-- The body of the loop over the entries of the payload of
apocMetaSchema, for the entry `k`, `v`. -/
def apocEntry (k : String) (v : Any) (m : Metadata) (allProps : List (String × Any)) :
    Option (Metadata × List (String × Any)) :=
  match v.asMap with
  | none => none
  | some kv =>
    if (mapIndex kv "type").eqString "node" then
      match (mapIndex kv "properties").asMap with
      | none => none
      | some ps =>
        match nodePropsLoop ps [] allProps with
        | none => none
        | some (props, allProps1) =>
          match (mapIndex kv "count").asInt64, (mapIndex kv "type").asString with
          | some count, some ty =>
            let n : Node :=
              { Count := count, Relationships := [], Typ := ty, Properties := props, Labels := [k] }
            some ({ m with Nodes := m.Nodes ++ [n] }, allProps1)
          | _, _ => none
    else
      match (mapIndex kv "properties").asMap with
      | none => none
      | some ps =>
        match relPropsLoop ps [] allProps with
        | none => none
        | some (props, allProps1) =>
          match (mapIndex kv "count").asInt64 with
          | some count =>
            let r : Relationship := { Count := count, Typ := k, Properties := props }
            some ({ m with Rels := m.Rels ++ [r] }, allProps1)
          | none => none

/-- The loop over the entries of the payload of apocMetaSchema. -/
def apocEntries : List (String × Any) → Metadata → List (String × Any) →
    Option (Metadata × List (String × Any))
  | [], m, allProps => some (m, allProps)
  | (k, v) :: rest, m, allProps =>
    match apocEntry k v m allProps with
    | none => none
    | some (m1, allProps1) => apocEntries rest m1 allProps1

/-- The comparison that sorts the nodes in apocMetaSchema. -/
def nodeLess (a b : Node) : Bool := decide (slicesCompare a.Labels b.Labels < 0)

/-- The comparison that sorts the relationships in apocMetaSchema. -/
def relLess (a b : Relationship) : Bool := strLess a.Typ b.Typ

/-- The part of apocMetaSchema after the record is fetched: decode the
record into `m` and sort. -/
def apocDecode (rec : neo4j.Record) (m : Metadata) : Option Metadata :=
  match rec.Values[0]? with
  | none => none
  | some v0 =>
    match v0.asMap with
    | none => none
    | some kvs =>
      match apocEntries kvs m [] with
      | none => none
      | some (m1, allProps) =>
        let m2 := { m1 with Props := m1.Props ++ allProps.map Prod.fst }
        let m3 := { m2 with Props := sortStrings m2.Props }
        let m4 := { m3 with Nodes := sortFunc nodeLess m3.Nodes }
        some { m4 with Rels := sortFunc relLess m4.Rels }

/-- The function apocMetaSchema examines a subset of the graph to provide
meta information. -/
def apocMetaSchema (c : Conn) (m : Metadata) :
    Option (Conn × Metadata × Option neo4j.Error) :=
  match c.Session with
  | none => none
  | some (d, s) =>
    match d.Run s "CALL apoc.meta.schema" with
    | (d1, .error err) => some ({ c with Driver := some d1 }, m, some err)
    | (d1, .ok rows) =>
      match neo4j.Single rows with
      | .error err => some ({ c with Driver := some d1 }, m, some err)
      | .ok rec =>
        match apocDecode rec m with
        | none => none
        | some m1 => some ({ c with Driver := some d1 }, m1, none)

/-- The statement of FetchMetadata that lists the functions. -/
def cypF : String :=
  "CALL dbms.functions() YIELD name, signature RETURN name, signature ORDER BY toLower(name)"

/-- The statement of FetchMetadata that lists the procedures. -/
def cypP : String :=
  "CALL dbms.procedures() YIELD name, signature RETURN name, signature ORDER BY toLower(name)"

/-- The capability probe of FetchMetadata: the search for
"apoc.meta.schema" in the procedure list and the test of the index found.
The search only reads positions below the length of the list. -/
def hasApoc (procs : List Func) : Bool :=
  let idx := sortSearch procs.length (fun i =>
    match procs[i]? with
    | some p => !strLess p.Name "apoc.meta.schema"
    | none => false)
  match procs[idx]? with
  | some p => decide (p.Name = "apoc.meta.schema")
  | none => false

/-- FetchMetadata retrieves schema information like labels, relationships,
properties, functions and procedures.  The Metadata returned next to the
error of the chosen path is the one that path has filled. -/
def FetchMetadata (c : Conn) : Option (Conn × Metadata × Option neo4j.Error) :=
  if c.DBName = SystemDB then some (c, Metadata.zero, none)
  else
    match listFuncs c cypF with
    | none => none
    | some (c1, funcs, some err) => some (c1, { Metadata.zero with Funcs := funcs }, some err)
    | some (c1, funcs, none) =>
      match listFuncs c1 cypP with
      | none => none
      | some (c2, procs, some err) =>
        some (c2, { Metadata.zero with Funcs := funcs, Procs := procs }, some err)
      | some (c2, procs, none) =>
        let m : Metadata := { Metadata.zero with Funcs := funcs, Procs := procs }
        if !hasApoc m.Procs then fetchSimple c2 m
        else apocMetaSchema c2 m

/-! ## plan/plan.go -/

/-- StmtType is an alias for StatementType, an integer type of the driver. -/
structure StmtType where
  val : Int
deriving DecidableEq, Repr

/-- The UTF-8 bytes of a string: the conversion `[]byte(s)`. -/
def stringBytes (s : String) : List UInt8 := s.data.flatMap String.utf8EncodeChar

/-- The string that consists of one double quote. -/
def doubleQuote : String := String.singleton (Char.ofNat 34)

/-- String describes the type of statement; `none` is the panic of an index
out of range. -/
def StmtType.String (s : StmtType) : Option String :=
  if s.val < 0 then none
  else ["UNKNOWN", "READ_ONLY", "READ_WRITE", "WRITE_ONLY", "SCHEMA_WRITE"][s.val.toNat]?

/-- MarshalJSON serializes the statement type as JSON value. -/
def StmtType.MarshalJSON (s : StmtType) : Option (List UInt8 × Option neo4j.Error) :=
  match s.String with
  | none => none
  | some label => some (stringBytes (doubleQuote ++ label ++ doubleQuote), none)

/-- MarshalYAML serializes the statement type as YAML value. -/
def StmtType.MarshalYAML (s : StmtType) : Option (Any × Option neo4j.Error) :=
  match s.String with
  | none => none
  | some label => some (Any.str label, none)

/-- The verb `%d` of fmt.Sprintf on an integer: decimal digits, with a minus
sign below zero. -/
def fmtInt (n : Int) : String := toString n

/-- Stats holds the statics of an execution plan. -/
structure Stats where
  Plan : String
  Statement : StmtType
  Version : String
  Planner : String
  Runtime : String
  Time : Int
  DBHits : Int
  Rows : Int
  Memory : Int
deriving DecidableEq, Repr

/-- String returns a string representation of the statistics. -/
def Stats.String (p : Stats) : String :=
  p.Plan ++ " (" ++ fmtInt p.Time ++ " ms, " ++ fmtInt p.Rows ++ " rows, " ++
    fmtInt p.DBHits ++ " DB hits)"

/-- Op is a single operation in an execution plan.  The arguments of `mk`
are the fields Op, Details, RowsEst, Rows, DBHits, Memory, CacheHits,
CacheMisses, Order and Children, in the order of the source. -/
inductive Op where
  | mk (operator : String) (details : String) (rowsEst : Int) (rows : Int) (dbHits : Int)
      (memory : Int) (cacheHits : Int) (cacheMisses : Int) (order : String)
      (children : List Op)

/-- The field `Op`, the name of the operator. -/
def Op.Operator : Op → String
  | .mk o _ _ _ _ _ _ _ _ _ => o

/-- The field `Rows`. -/
def Op.Rows : Op → Int
  | .mk _ _ _ r _ _ _ _ _ _ => r

/-- The field `DBHits`. -/
def Op.DBHits : Op → Int
  | .mk _ _ _ _ h _ _ _ _ _ => h

/-- The function plural returns singular if n is 1 or plural otherwise. -/
def plural (n : Int) (singular : String) (plural : String) : String :=
  if n = 1 then singular else plural

/-- String returns a string representation of the operation. -/
def Op.String (p : Op) : String :=
  p.Operator ++ " (" ++ fmtInt p.Rows ++ " " ++ plural p.Rows "row" "rows" ++ ", " ++
    fmtInt p.DBHits ++ " DB " ++ plural p.DBHits "hit" "hits" ++ ")"

/-! ## Sample connections -/

/-- A driver on which the probe of database "orders" fails with the
database error "DatabaseNotFound", the probe of "system" fails with
"CredentialsExpired", and every other probe succeeds. -/
def sampleDriver : neo4j.Driver :=
  { closeErr := none
    beginAnswer := fun _ => .ok { id := 7, commitErr := none, rollbackErr := none }
    readAnswer := fun db _ =>
      if db = "orders" then some (neo4j.Error.neo4j "DatabaseNotFound" "database does not exist")
      else if db = "system" then some (neo4j.Error.neo4j "CredentialsExpired" "password change required")
      else none
    runAnswer := fun _ _ => .ok []
    issued := [] }

/-- An open connection to database "neo4j" without a transaction. -/
def sampleConn : Conn :=
  { Driver := some sampleDriver, user := "neo4j", auth := { Tokens := [] },
    DBName := "neo4j", Tx := none, Params := [] }

/-- A transaction whose commit and rollback succeed. -/
def sampleTx : neo4j.Transaction := { id := 1, commitErr := none, rollbackErr := none }

/-- A transaction whose commit and rollback fail. -/
def failingTx : neo4j.Transaction :=
  { id := 2, commitErr := some (neo4j.Error.other "commit failed"),
    rollbackErr := some (neo4j.Error.other "rollback failed") }

/-- An open connection with an open transaction. -/
def sampleConnTx : Conn := { sampleConn with Tx := some sampleTx }

/-- A connection after a successful Close: no driver handle. -/
def closedConn : Conn :=
  { Driver := none, user := "neo4j", auth := { Tokens := [] },
    DBName := "", Tx := none, Params := [] }

/-! ## The payload of apoc.meta.schema in the words of the specification -/

/-- The field `f` of an entry or of a property descriptor: the nil interface
when `v` is no mapping or has no such field. -/
def entryField (v : Any) (f : String) : Any :=
  match v.asMap with
  | some kv => mapIndex kv f
  | none => Any.nil

/-- An entry is of kind node when its `type` is the string "node". -/
def entryIsNode (v : Any) : Bool := (entryField v "type").eqString "node"

/-- The `count` of an entry. -/
def entryCount (v : Any) : Int := ((entryField v "count").asInt64).getD 0

/-- The `properties` of an entry, in the order of iteration. -/
def entryProperties (v : Any) : List (String × Any) :=
  ((entryField v "properties").asMap).getD []

/-- The NodeProperty a property descriptor stands for. -/
def specNodeProperty (pm : Any) : NodeProperty :=
  { Indexed := ((entryField pm "indexed").asBool).getD false
    Unique := ((entryField pm "unique").asBool).getD false
    Existence := ((entryField pm "existence").asBool).getD false
    Typ := ((entryField pm "type").asString).getD "" }

/-- The RelProperty a property descriptor stands for. -/
def specRelProperty (pm : Any) : RelProperty :=
  { Array := ((entryField pm "array").asBool).getD false
    Indexed := ((entryField pm "indexed").asBool).getD false
    Existence := ((entryField pm "existence").asBool).getD false
    Typ := ((entryField pm "type").asString).getD "" }

/-- The Node the entry `k`, `v` stands for. -/
def specNode (k : String) (v : Any) : Node :=
  { Count := entryCount v
    Relationships := []
    Typ := "node"
    Properties := (entryProperties v).map (fun p => (p.1, specNodeProperty p.2))
    Labels := [k] }

/-- The Relationship the entry `k`, `v` stands for. -/
def specRel (k : String) (v : Any) : Relationship :=
  { Count := entryCount v
    Typ := k
    Properties := (entryProperties v).map (fun p => (p.1, specRelProperty p.2)) }

/-- One Node per entry of kind node. -/
def specNodes (payload : List (String × Any)) : List Node :=
  (payload.filter (fun e => entryIsNode e.2)).map (fun e => specNode e.1 e.2)

/-- One Relationship per entry of any other kind. -/
def specRels (payload : List (String × Any)) : List Relationship :=
  (payload.filter (fun e => !entryIsNode e.2)).map (fun e => specRel e.1 e.2)

/-- A property descriptor of a node has the fields `indexed`, `unique`,
`existence` (booleans) and `type` (a string). -/
def nodeDescOk (pm : Any) : Bool :=
  pm.asMap.isSome && (entryField pm "indexed").asBool.isSome &&
  (entryField pm "unique").asBool.isSome && (entryField pm "existence").asBool.isSome &&
  (entryField pm "type").asString.isSome

/-- A property descriptor of a relationship has the fields `array`,
`indexed`, `existence` (booleans) and `type` (a string). -/
def relDescOk (pm : Any) : Bool :=
  pm.asMap.isSome && (entryField pm "array").asBool.isSome &&
  (entryField pm "indexed").asBool.isSome && (entryField pm "existence").asBool.isSome &&
  (entryField pm "type").asString.isSome

/-- An entry the decoder accepts: a mapping with an int64 `count` and a
mapping `properties` whose descriptors fit the kind of the entry. -/
def entryDecodes (v : Any) : Bool :=
  v.asMap.isSome && (entryField v "count").asInt64.isSome &&
  (entryField v "properties").asMap.isSome &&
  (entryProperties v).all (fun p => if entryIsNode v then nodeDescOk p.2 else relDescOk p.2)

/-- The keys of a mapping are pairwise different, as in every Go map. -/
def keysNodup (m : List (String × Any)) : Bool := decide (m.map Prod.fst).Nodup

/-- A well-formed entry: a mapping with a string `type`, an int64 `count`
and a mapping `properties` of well-formed descriptors. -/
def entryWellFormed (v : Any) : Bool :=
  (entryField v "type").asString.isSome && entryDecodes v && keysNodup (entryProperties v)

/-- A well-formed payload: a mapping from key to well-formed entry. -/
def payloadWellFormed (payload : List (String × Any)) : Bool :=
  keysNodup payload && payload.all (fun e => entryWellFormed e.2)

/-- The assignments `acc[n] = f pm` for every property `n`, `pm` of `ps`,
in the order of iteration. -/
def setAll {α : Type} (f : Any → α) (ps : List (String × Any)) (acc : List (String × α)) :
    List (String × α) :=
  ps.foldl (fun acc p => mapSet acc p.1 (f p.2)) acc

/-- The Metadata after the loop body of apocMetaSchema has accepted the
entry `k`, `v`. -/
def withEntry (k : String) (v : Any) (m : Metadata) : Metadata :=
  if entryIsNode v then
    let n : Node :=
      { Count := entryCount v
        Relationships := []
        Typ := "node"
        Properties := setAll specNodeProperty (entryProperties v) []
        Labels := [k] }
    { m with Nodes := m.Nodes ++ [n] }
  else
    let r : Relationship :=
      { Count := entryCount v
        Typ := k
        Properties := setAll specRelProperty (entryProperties v) [] }
    { m with Rels := m.Rels ++ [r] }

/-! ## Sample payloads -/

/-- A driver that answers every statement run on it with `run`. -/
def runDriver (run : String → Except neo4j.Error (List neo4j.Record)) : neo4j.Driver :=
  { closeErr := none
    beginAnswer := fun _ => .ok { id := 1, commitErr := none, rollbackErr := none }
    readAnswer := fun _ _ => none
    runAnswer := fun _ stmt => run stmt
    issued := [] }

/-- An open connection to database "neo4j" on the driver `d`. -/
def connOn (d : neo4j.Driver) : Conn :=
  { Driver := some d, user := "neo4j", auth := { Tokens := [] },
    DBName := "neo4j", Tx := none, Params := [] }

/-- The payload of the specification: a node entry "Person" with count 3
and property "id", a relationship entry "KNOWS" with count 5 and property
"since". -/
def schemaPayload : List (String × Any) :=
  [("Person", Any.map [("type", Any.str "node"), ("count", Any.int64 3),
      ("properties", Any.map [("id", Any.map [("indexed", Any.bool true),
        ("unique", Any.bool true), ("existence", Any.bool true),
        ("type", Any.str "String")])])]),
   ("KNOWS", Any.map [("type", Any.str "relationship"), ("count", Any.int64 5),
      ("properties", Any.map [("since", Any.map [("array", Any.bool false),
        ("indexed", Any.bool false), ("existence", Any.bool false),
        ("type", Any.str "Integer")])])])]

/-- The single record that carries a payload. -/
def payloadRecord (payload : List (String × Any)) : neo4j.Record :=
  { Values := [Any.map payload], Keys := ["value"] }

/-- An open connection whose driver answers with one record that carries
`payload`. -/
def payloadConn (payload : List (String × Any)) : Conn :=
  connOn (runDriver (fun _ => .ok [payloadRecord payload]))

/-- A payload whose only entry has a `count` and `properties`, but no
`type`. -/
def untypedPayload : List (String × Any) :=
  [("X", Any.map [("count", Any.int64 1), ("properties", Any.map [])])]

/-- A node entry without `count`. -/
def uncountedEntry : Any :=
  Any.map [("type", Any.str "node"), ("properties", Any.map [])]

/-- A payload whose only entry is a node without `count`. -/
def uncountedPayload : List (String × Any) := [("Person", uncountedEntry)]

/-- A procedure list in the order of `toLower(name)`: "apoc.meta.schema"
before "MyOrg.procedure". -/
def mixedCaseProcs : List Func :=
  [Func.mk "apoc.meta.schema" "apoc.meta.schema() :: (value :: MAP?)" [],
   Func.mk "MyOrg.procedure" "MyOrg.procedure() :: VOID" []]

/-- The record of the procedure listing for one Func. -/
def funcRecord (f : Func) : neo4j.Record :=
  { Values := [Any.str f.Name, Any.str f.Sig], Keys := ["name", "signature"] }

/-- An open connection whose driver lists no functions, lists
`mixedCaseProcs` as procedures and answers every other statement with no
record. -/
def mixedCaseConn : Conn :=
  connOn (runDriver (fun stmt =>
    if stmt = cypP then .ok (mixedCaseProcs.map funcRecord) else .ok []))

/-- The Node expected for the entry "Person" of `schemaPayload`. -/
def personNode : Node :=
  { Count := 3
    Relationships := []
    Typ := "node"
    Properties := [("id", { Indexed := true, Unique := true, Existence := true, Typ := "String" })]
    Labels := ["Person"] }

/-- The Relationship expected for the entry "KNOWS" of `schemaPayload`. -/
def knowsRel : Relationship :=
  { Count := 5
    Typ := "KNOWS"
    Properties :=
      [("since", { Array := false, Indexed := false, Existence := false, Typ := "Integer" })] }

/-- The history of the driver of a connection. -/
def issuedOn (c : Conn) : List neo4j.Call :=
  match c.Driver with
  | some d => d.issued
  | none => []

/-! ## Sample processes -/

/-- A process whose default connection is `sampleConn`. -/
def sampleProcess : Process := { conns := [sampleConn], defConn := some 0 }

/-- An answer of `neo4j.NewDriver`: no driver for any address. -/
def noDriver : String → neo4j.AuthToken → Except neo4j.Error neo4j.Driver :=
  fun _ _ => .error (neo4j.Error.other "invalid address")

/-- An answer of `neo4j.NewDriver`: `sampleDriver` for every address. -/
def someDriver : String → neo4j.AuthToken → Except neo4j.Error neo4j.Driver :=
  fun _ _ => .ok sampleDriver

/-- A driver whose Close fails. -/
def stuckDriver : neo4j.Driver :=
  { sampleDriver with closeErr := some (neo4j.Error.other "close failed") }

/-- An open connection to the system database whose driver answers every
statement with an error. -/
def systemConn : Conn :=
  { connOn (runDriver (fun _ => .error (neo4j.Error.other "not available"))) with
    DBName := SystemDB }


/-! ## The same payload under another order of iteration -/

/-- The entries of a Go map listed in ascending order of the keys: a form
that does not depend on the order of iteration. -/
def mapCanon {α : Type} (m : List (String × α)) : List (String × α) :=
  sortFunc (fun a b => strLess a.1 b.1) m

/-- A Node with its maps in the form of `mapCanon`. -/
def Node.canon (n : Node) : Node :=
  { n with Properties := mapCanon n.Properties, Relationships := mapCanon n.Relationships }

/-- A Relationship with its map in the form of `mapCanon`. -/
def Relationship.canon (r : Relationship) : Relationship :=
  { r with Properties := mapCanon r.Properties }

/-- Two entries that hold the same `type` and `count` and the same
`properties`, the latter visited in any two orders. -/
def SameEntry (v1 v2 : Any) : Prop :=
  ∃ kv1 kv2 ps1 ps2, v1 = Any.map kv1 ∧ v2 = Any.map kv2 ∧
    mapIndex kv1 "type" = mapIndex kv2 "type" ∧
    mapIndex kv1 "count" = mapIndex kv2 "count" ∧
    mapIndex kv1 "properties" = Any.map ps1 ∧ mapIndex kv2 "properties" = Any.map ps2 ∧
    ps1.Perm ps2

/-- Two payloads that hold the same entries under the same keys, visited in
any two orders. -/
def SamePayload (p1 p2 : List (String × Any)) : Prop :=
  ∃ q, p1.Perm q ∧ List.Forall₂ (fun a b => a.1 = b.1 ∧ SameEntry a.2 b.2) q p2


/-- The Node of an entry of kind node, with its maps in the form of
`mapCanon`; nothing for an entry of another kind. -/
def canonNodeOf (e : String × Any) : Option Node :=
  if entryIsNode e.2 then some (specNode e.1 e.2).canon else none

/-- The Relationship of an entry that is not of kind node, with its map in
the form of `mapCanon`; nothing for an entry of kind node. -/
def canonRelOf (e : String × Any) : Option Relationship :=
  if entryIsNode e.2 then none else some (specRel e.1 e.2).canon


/-! ## Sample payloads in two orders of iteration -/

/-- The descriptor of the property "id" of the sample payloads. -/
def idDescriptor : Any :=
  Any.map [("indexed", Any.bool true), ("unique", Any.bool true),
    ("existence", Any.bool true), ("type", Any.str "String")]

/-- The descriptor of the property "name" of the sample payloads. -/
def nameDescriptor : Any :=
  Any.map [("indexed", Any.bool false), ("unique", Any.bool false),
    ("existence", Any.bool false), ("type", Any.str "String")]

/-- The relationship entry "KNOWS" of the sample payloads. -/
def knowsEntry : Any :=
  Any.map [("type", Any.str "relationship"), ("count", Any.int64 5),
    ("properties", Any.map [("since", Any.map [("array", Any.bool false),
      ("indexed", Any.bool false), ("existence", Any.bool false),
      ("type", Any.str "Integer")])])]

/-- The node entry "Person" of the sample payloads, with its properties in
the order "id", "name". -/
def personEntry : Any :=
  Any.map [("type", Any.str "node"), ("count", Any.int64 3),
    ("properties", Any.map [("id", idDescriptor), ("name", nameDescriptor)])]

/-- The entry `personEntry` with its fields and its properties in another
order. -/
def personEntryReordered : Any :=
  Any.map [("count", Any.int64 3), ("type", Any.str "node"),
    ("properties", Any.map [("name", nameDescriptor), ("id", idDescriptor)])]

/-- A payload with the node entry "Person" before the relationship entry
"KNOWS". -/
def orderedPayload : List (String × Any) :=
  [("Person", personEntry), ("KNOWS", knowsEntry)]

/-- The payload `orderedPayload` visited in another order: "KNOWS" before
"Person", and the properties of "Person" in the order "name", "id". -/
def reorderedPayload : List (String × Any) :=
  [("KNOWS", knowsEntry), ("Person", personEntryReordered)]


/-! # Theorems -/

/-! ## graph/conn.go: UseDB -/

/-- The three outcomes of UseDB once the rollback step went through and the
probe was issued with answer `d.readAnswer dbName "CALL db.ping()"`. -/
theorem UseDB_after_rollback (c : Conn) (d : neo4j.Driver) (dbName : String)
    (hd : c.Driver = some d) (hrb : c.Rollback.2.2 = none) :
    c.UseDB dbName =
      (let d1 : neo4j.Driver :=
        { d with issued := d.issued ++
            [neo4j.Call.newSession dbName, neo4j.Call.readTransaction dbName "CALL db.ping()"] }
       let c3 : Conn := { c with Tx := none, DBName := dbName, Driver := some d1 }
       match d.readAnswer dbName "CALL db.ping()" with
       | some (neo4j.Error.neo4j title msg) =>
         if title = "CredentialsExpired" ∧ dbName = SystemDB then some (c3, none)
         else some (c3, some (neo4j.Error.neo4j title msg))
       | some (neo4j.Error.other msg) =>
         some ({ c3 with DBName := c.DBName }, some (neo4j.Error.other msg))
       | none => some (c3, none)) := by
  cases c with
  | mk drv user auth db tx params =>
    simp only at hd
    subst hd
    cases tx with
    | none =>
      simp [Conn.UseDB, Conn.Rollback, Conn.Session, neo4j.Driver.NewSession,
        neo4j.Driver.ReadTransaction]
    | some t =>
      simp [Conn.Rollback] at hrb
      simp [Conn.UseDB, Conn.Rollback, hrb, Conn.Session, neo4j.Driver.NewSession,
        neo4j.Driver.ReadTransaction]

/-- C1 (the code at the failing input): on a connection to "neo4j" whose
driver answers the probe of "orders" with the database error
"DatabaseNotFound", `UseDB "orders"` returns that error and the active
database name is "orders", not "neo4j". -/
theorem UseDB_database_error_keeps_new_name :
    sampleConn.DBName = "neo4j" ∧
    sampleDriver.readAnswer "orders" "CALL db.ping()" =
      some (neo4j.Error.neo4j "DatabaseNotFound" "database does not exist") ∧
    (sampleConn.UseDB "orders").map (fun r => (r.1.DBName, r.2)) =
      some ("orders", some (neo4j.Error.neo4j "DatabaseNotFound" "database does not exist")) := by
  decide

/-- C2: when the rollback step of UseDB goes through and the probe fails
with a database error titled "CredentialsExpired", UseDB on the system
database returns no error and the active database is the system database;
on any other database the error is returned. -/
theorem UseDB_credentials_expired (c : Conn) (d : neo4j.Driver) (dbName msg : String)
    (hd : c.Driver = some d) (hrb : c.Rollback.2.2 = none)
    (hprobe : d.readAnswer dbName "CALL db.ping()" =
      some (neo4j.Error.neo4j "CredentialsExpired" msg)) :
    (dbName = SystemDB →
      ∃ c1, c.UseDB dbName = some (c1, none) ∧ c1.DBName = SystemDB) ∧
    (dbName ≠ SystemDB →
      ∃ c1, c.UseDB dbName = some (c1, some (neo4j.Error.neo4j "CredentialsExpired" msg))) := by
  rw [UseDB_after_rollback c d dbName hd hrb, hprobe]
  constructor
  · intro h
    subst h
    simp
  · intro h
    simp [h]

/-- C2 at a sample input: the connection to "neo4j" switches to "system"
although the probe reports expired credentials. -/
theorem UseDB_credentials_expired_witness :
    ∃ c1, sampleConn.UseDB SystemDB = some (c1, none) ∧ c1.DBName = SystemDB :=
  (UseDB_credentials_expired sampleConn sampleDriver SystemDB "password change required"
    rfl rfl rfl).1 rfl

/-! ## graph/conn.go: Commit, Rollback, GetTransaction -/

/-- C7: without an open transaction Commit and Rollback return false and no
error and leave the connection as it is; with an open transaction the
connection afterwards differs only in having no cached transaction, and the
error returned is the one the driver gave, whether nil or not. -/
theorem Commit_Rollback_discard_transaction (c : Conn) :
    (c.Tx = none → c.Commit = (c, false, none) ∧ c.Rollback = (c, false, none)) ∧
    (∀ tx, c.Tx = some tx →
      c.Commit.1 = { c with Tx := none } ∧ c.Commit.2.2 = tx.Commit ∧
      c.Rollback.1 = { c with Tx := none } ∧ c.Rollback.2.2 = tx.Rollback) := by
  constructor
  · intro h
    simp [Conn.Commit, Conn.Rollback, h]
  · intro tx h
    simp [Conn.Commit, Conn.Rollback, h]

/-- C7 at sample inputs: a closed connection without transaction, and a
connection whose open transaction fails to commit and to roll back. -/
theorem Commit_Rollback_discard_transaction_witness :
    (closedConn.Commit = (closedConn, false, none) ∧
      closedConn.Rollback = (closedConn, false, none)) ∧
    ({ sampleConn with Tx := some failingTx } : Conn).Commit.1.Tx = none ∧
    ({ sampleConn with Tx := some failingTx } : Conn).Commit.2.2 =
      some (neo4j.Error.other "commit failed") ∧
    ({ sampleConn with Tx := some failingTx } : Conn).Rollback.2.2 =
      some (neo4j.Error.other "rollback failed") := by
  refine ⟨(Commit_Rollback_discard_transaction closedConn).1 rfl, ?_, ?_, ?_⟩
  · have h := (Commit_Rollback_discard_transaction
      ({ sampleConn with Tx := some failingTx } : Conn)).2 failingTx rfl
    rw [h.1]
  · exact ((Commit_Rollback_discard_transaction
      ({ sampleConn with Tx := some failingTx } : Conn)).2 failingTx rfl).2.1
  · exact ((Commit_Rollback_discard_transaction
      ({ sampleConn with Tx := some failingTx } : Conn)).2 failingTx rfl).2.2.2

/-- The boolean of Commit and of Rollback: true exactly when there was an
open transaction and the driver returned an error for it. -/
theorem Commit_Rollback_flag (c : Conn) :
    (c.Commit.2.1 = true ↔ ∃ tx, c.Tx = some tx ∧ tx.Commit ≠ none) ∧
    (c.Rollback.2.1 = true ↔ ∃ tx, c.Tx = some tx ∧ tx.Rollback ≠ none) := by
  cases c with
  | mk drv user auth db tx params =>
    cases tx with
    | none => simp [Conn.Commit, Conn.Rollback]
    | some t =>
      simp [Conn.Commit, Conn.Rollback, Option.isSome_iff_ne_none]

/-- C8 (the code at the failing input): on a connection with an open
transaction whose commit and rollback succeed, Commit and Rollback both
return false next to a nil error. -/
theorem Commit_Rollback_flag_false_on_success :
    sampleConnTx.Tx = some sampleTx ∧
    sampleConnTx.Commit.2 = (false, none) ∧
    sampleConnTx.Rollback.2 = (false, none) := by
  decide

/-- C9 (counterexample): on a closed connection, which has no driver handle
and no cached transaction, GetTransaction does not return: the call of
Session dereferences the nil driver. -/
theorem GetTransaction_closed_panics :
    closedConn.Tx = none ∧ ¬ ∃ r, closedConn.GetTransaction = some r := by
  constructor
  · rfl
  · rintro ⟨r, h⟩
    simp [Conn.GetTransaction, Conn.Session, closedConn] at h

/-- C9 (amended): a cached transaction is returned as it is, with created
false, no error and the connection unchanged, so that no session is opened;
on a connection with a driver handle and no cached transaction, one session
is opened on the current database and one transaction begun on it, the
transaction the driver returned (nil next to an error) is cached and
returned with created true; and after any call that returned no error, the
next call returns the same transaction with created false. -/
theorem GetTransaction_cached_or_created (c : Conn) :
    (∀ tx, c.Tx = some tx → c.GetTransaction = some (c, some tx, false, none)) ∧
    (∀ d, c.Driver = some d → c.Tx = none →
      c.GetTransaction =
        (let d1 : neo4j.Driver :=
          { d with issued := d.issued ++
              [neo4j.Call.newSession c.DBName, neo4j.Call.beginTransaction c.DBName] }
         match d.beginAnswer c.DBName with
         | .ok tx => some ({ c with Driver := some d1, Tx := some tx }, some tx, true, none)
         | .error e => some ({ c with Driver := some d1, Tx := none }, none, true, some e))) ∧
    (∀ c1 tx created, c.GetTransaction = some (c1, tx, created, none) →
      tx ≠ none ∧ c1.GetTransaction = some (c1, tx, false, none)) := by
  cases c with
  | mk drv user auth db tx0 params =>
    refine ⟨?_, ?_, ?_⟩
    · intro tx h
      simp only at h
      subst h
      simp [Conn.GetTransaction]
    · intro d hd htx
      simp only at hd htx
      subst hd htx
      simp only [Conn.GetTransaction, Conn.Session, neo4j.Driver.NewSession,
        neo4j.Driver.BeginTransaction]
      cases h : d.beginAnswer db <;> simp [h]
    · intro c1 tx created h
      cases tx0 with
      | some t =>
        simp [Conn.GetTransaction] at h
        obtain ⟨h1, h2, _⟩ := h
        subst h1 h2
        simp [Conn.GetTransaction]
      | none =>
        cases drv with
        | none => simp [Conn.GetTransaction, Conn.Session] at h
        | some d =>
          simp only [Conn.GetTransaction, Conn.Session, neo4j.Driver.NewSession,
            neo4j.Driver.BeginTransaction] at h
          cases hb : d.beginAnswer db with
          | error e => simp [hb] at h
          | ok t =>
            simp [hb] at h
            obtain ⟨h1, h2, _⟩ := h
            subst h1 h2
            simp [Conn.GetTransaction]

/-- C9 (amended) at a sample input: the first call on an open connection
without transaction creates transaction 7, the second returns it again. -/
theorem GetTransaction_cached_or_created_witness :
    ∃ c1 tx, sampleConn.GetTransaction = some (c1, tx, true, none) ∧ tx ≠ none ∧
      c1.GetTransaction = some (c1, tx, false, none) := by
  have h := GetTransaction_cached_or_created sampleConn
  have h2 := h.2.1 sampleDriver rfl rfl
  exact ⟨_, _, h2, h.2.2 _ _ _ h2⟩

/-! ## graph/result.go -/

/-- The loop of Index answers -1 when no key matches. -/
theorem indexLoop_of_not_mem (key : String) (ks : List String) (i : Int) (h : key ∉ ks) :
    Result.indexLoop key ks i = -1 := by
  induction ks generalizing i with
  | nil => rfl
  | cons k ks ih =>
    have hk : ¬ k = key := fun e => h (by simp [e])
    have hks : key ∉ ks := fun e => h (by simp [e])
    simp [Result.indexLoop, hk, ih _ hks]

/-- The loop of Index finds a key appended behind keys that differ from it
at the position it was appended. -/
theorem indexLoop_append_new (key : String) (ks : List String) (i : Int) (h : key ∉ ks) :
    Result.indexLoop key (ks ++ [key]) i = i + ks.length := by
  induction ks generalizing i with
  | nil => simp [Result.indexLoop]
  | cons k ks ih =>
    have hk : ¬ k = key := fun e => h (by simp [e])
    have hks : key ∉ ks := fun e => h (by simp [e])
    simp [Result.indexLoop, hk, ih _ hks]
    omega

/-- The loop of Index stops at the first match: keys appended behind a
match do not change the answer, which lies within the keys scanned. -/
theorem indexLoop_append_of_mem (key : String) (ks more : List String) (i : Int)
    (h : key ∈ ks) :
    Result.indexLoop key (ks ++ more) i = Result.indexLoop key ks i ∧
    i ≤ Result.indexLoop key ks i ∧ Result.indexLoop key ks i < i + ks.length := by
  induction ks generalizing i with
  | nil => simp at h
  | cons k ks ih =>
    by_cases hk : k = key
    · simp [Result.indexLoop, hk]
    · have hks : key ∈ ks := by
        rcases List.mem_cons.1 h with e | e
        · exact absurd e.symm hk
        · exact e
      obtain ⟨h1, h2, h3⟩ := ih (i + 1) hks
      simp only [List.cons_append, Result.indexLoop, hk, if_false, h1, List.length_cons]
      refine ⟨h1, by omega, ?_⟩
      push_cast
      omega

/-- The keys and values after adding pairs one at a time to any Result. -/
theorem foldl_Add_fields (pairs : List (String × Any)) (r : Result) :
    (pairs.foldl (fun r p => r.Add p.1 p.2) r).Keys = r.Keys ++ pairs.map Prod.fst ∧
    (pairs.foldl (fun r p => r.Add p.1 p.2) r).Values = r.Values ++ pairs.map Prod.snd := by
  induction pairs generalizing r with
  | nil => simp
  | cons p ps ih =>
    obtain ⟨h1, h2⟩ := ih (r.Add p.1 p.2)
    rw [List.foldl_cons, h1, h2]
    simp [Result.Add]

/-- The keys and values of the Result built from the empty one. -/
theorem addAll_fields (pairs : List (String × Any)) :
    (Result.addAll pairs).Keys = pairs.map Prod.fst ∧
    (Result.addAll pairs).Values = pairs.map Prod.snd := by
  have h := foldl_Add_fields pairs Result.empty
  simpa [Result.addAll, Result.empty] using h

/-- C10 (counterexample): after Add("a", 1) and Add("a", 2) the second pair
stands at position 1, but Index("a") is 0 and Value("a") is (1, true). -/
theorem Add_duplicate_key_finds_first :
    ((Result.addAll [("a", Any.int64 1)]).Add "a" (Any.int64 2)).Index "a" = 0 ∧
    ((Result.addAll [("a", Any.int64 1)]).Add "a" (Any.int64 2)).Value "a" =
      some (Any.int64 1, true) ∧
    ((Result.addAll [("a", Any.int64 1)]).Add "a" (Any.int64 2)).Index "a" ≠ 1 ∧
    ((Result.addAll [("a", Any.int64 1)]).Add "a" (Any.int64 2)).Value "a" ≠
      some (Any.int64 2, true) := by
  refine ⟨by decide, rfl, by decide, ?_⟩
  intro h
  have h2 : ((Result.addAll [("a", Any.int64 1)]).Add "a" (Any.int64 2)).Value "a" =
      some (Any.int64 1, true) := rfl
  rw [h2] at h
  simp at h

/-- C10 (amended): on the Result built by adding `pairs` one at a time to
the empty Result, after one more Add(k, v) with a key that was not added
before, Index(k) is the position at which the pair was appended and Value(k)
is (v, true); with a key that was added before, Index(k) and Value(k) answer
as they did before this Add, from a position before the appended one. -/
theorem Add_then_lookup (pairs : List (String × Any)) (k : String) (v : Any) :
    (k ∉ pairs.map Prod.fst →
      ((Result.addAll pairs).Add k v).Index k = pairs.length ∧
      ((Result.addAll pairs).Add k v).Value k = some (v, true)) ∧
    (k ∈ pairs.map Prod.fst →
      ((Result.addAll pairs).Add k v).Index k = (Result.addAll pairs).Index k ∧
      ((Result.addAll pairs).Add k v).Value k = (Result.addAll pairs).Value k ∧
      (Result.addAll pairs).Index k < pairs.length) := by
  obtain ⟨hk, hv⟩ := addAll_fields pairs
  constructor
  · intro hnew
    have hi : ((Result.addAll pairs).Add k v).Index k = pairs.length := by
      simp only [Result.Index, Result.Add, hk]
      rw [indexLoop_append_new k _ 0 hnew]
      simp
    refine ⟨hi, ?_⟩
    simp only [Result.Value, hi]
    simp [Result.Add, hv]
  · intro hold
    obtain ⟨h1, h2, h3⟩ := indexLoop_append_of_mem k (pairs.map Prod.fst) [k] 0 hold
    have hi : ((Result.addAll pairs).Add k v).Index k = (Result.addAll pairs).Index k := by
      simp only [Result.Index, Result.Add, hk]
      exact h1
    have hlt : (Result.addAll pairs).Index k < pairs.length := by
      simp only [Result.Index, hk]
      simpa using h3
    have hge : 0 ≤ (Result.addAll pairs).Index k := by
      simp only [Result.Index, hk]
      exact h2
    refine ⟨hi, ?_, hlt⟩
    simp only [Result.Value, hi]
    have hnneg : ¬ (Result.addAll pairs).Index k < 0 := by omega
    simp only [hnneg, if_false]
    have hbound : ((Result.addAll pairs).Index k).toNat < (pairs.map Prod.snd).length := by
      simp
      omega
    simp only [Result.Add, hv]
    rw [List.getElem?_append_left hbound]

/-- C10 (amended) at a sample input: two pairs with different keys. -/
theorem Add_then_lookup_witness :
    ((Result.addAll [("a", Any.int64 1)]).Add "b" (Any.int64 2)).Index "b" = 1 ∧
    ((Result.addAll [("a", Any.int64 1)]).Add "b" (Any.int64 2)).Value "b" =
      some (Any.int64 2, true) :=
  (Add_then_lookup [("a", Any.int64 1)] "b" (Any.int64 2)).1 (by decide)

/-! ## The order of Go strings and slices of strings -/

/-- A character is determined by its code point. -/
theorem char_eq_of_toNat_eq (a b : Char) (h : a.toNat = b.toNat) : a = b := by
  apply Char.ext
  apply UInt32.ext
  exact h

/-- No sequence of code points is below itself. -/
theorem charsLess_irrefl (a : List Char) : charsLess a a = false := by
  induction a with
  | nil => rfl
  | cons x xs ih => simp [charsLess, ih]

/-- The comparison of code point sequences is transitive. -/
theorem charsLess_trans (a b c : List Char) (hab : charsLess a b = true)
    (hbc : charsLess b c = true) : charsLess a c = true := by
  induction a generalizing b c with
  | nil =>
    cases b with
    | nil => simp [charsLess] at hab
    | cons y ys =>
      cases c with
      | nil => simp [charsLess] at hbc
      | cons z zs => simp [charsLess]
  | cons x xs ih =>
    cases b with
    | nil => simp [charsLess] at hab
    | cons y ys =>
      cases c with
      | nil => simp [charsLess] at hbc
      | cons z zs =>
        simp only [charsLess] at hab hbc ⊢
        by_cases hxy : x.toNat < y.toNat
        · by_cases hyz : y.toNat < z.toNat
          · have : x.toNat < z.toNat := by omega
            simp [this]
          · simp only [hyz, if_false] at hbc
            by_cases hzy : z.toNat < y.toNat
            · simp [hzy] at hbc
            · have : x.toNat < z.toNat := by omega
              simp [this]
        · simp only [hxy, if_false] at hab
          by_cases hyx : y.toNat < x.toNat
          · simp [hyx] at hab
          · simp only [hyx, if_false] at hab
            by_cases hyz : y.toNat < z.toNat
            · have : x.toNat < z.toNat := by omega
              simp [this]
            · simp only [hyz, if_false] at hbc
              by_cases hzy : z.toNat < y.toNat
              · simp [hzy] at hbc
              · simp only [hzy, if_false] at hbc
                have h1 : ¬ x.toNat < z.toNat := by omega
                have h2 : ¬ z.toNat < x.toNat := by omega
                simp only [h1, h2, if_false]
                exact ih ys zs hab hbc

/-- Two sequences of code points of which neither is below the other are
equal. -/
theorem charsLess_connex (a b : List Char) (hab : charsLess a b = false)
    (hba : charsLess b a = false) : a = b := by
  induction a generalizing b with
  | nil =>
    cases b with
    | nil => rfl
    | cons y ys => simp [charsLess] at hab
  | cons x xs ih =>
    cases b with
    | nil => simp [charsLess] at hba
    | cons y ys =>
      simp only [charsLess] at hab hba
      by_cases hxy : x.toNat < y.toNat
      · simp [hxy] at hab
      · by_cases hyx : y.toNat < x.toNat
        · simp [hyx] at hba
        · simp only [hxy, hyx, if_false] at hab hba
          have hx : x = y := char_eq_of_toNat_eq x y (by omega)
          rw [hx, ih ys hab hba]

/-- Go `<` on strings is irreflexive. -/
theorem strLess_irrefl (a : String) : strLess a a = false :=
  charsLess_irrefl a.data

/-- Go `<` on strings is transitive. -/
theorem strLess_trans (a b c : String) (hab : strLess a b = true) (hbc : strLess b c = true) :
    strLess a c = true :=
  charsLess_trans a.data b.data c.data hab hbc

/-- Two strings of which neither is below the other are equal. -/
theorem strLess_connex (a b : String) (hab : strLess a b = false) (hba : strLess b a = false) :
    a = b := by
  have h := charsLess_connex a.data b.data hab hba
  cases a
  cases b
  simp_all

/-- Go `<` on strings is asymmetric. -/
theorem strLess_asymm (a b : String) (hab : strLess a b = true) : strLess b a = false := by
  cases h : strLess b a with
  | false => rfl
  | true =>
    have := strLess_trans a b a hab h
    rw [strLess_irrefl] at this
    exact absurd this (by decide)

/-- The relation `not above` on strings is transitive. -/
theorem strLess_negtrans (a b c : String) (hba : strLess b a = false)
    (hcb : strLess c b = false) : strLess c a = false := by
  cases h : strLess c a with
  | false => rfl
  | true =>
    cases hab : strLess a b with
    | true =>
      have := strLess_trans c a b h hab
      rw [hcb] at this
      exact absurd this (by decide)
    | false =>
      have e := strLess_connex a b hab hba
      subst e
      rw [hcb] at h
      exact absurd h (by decide)

/-- The result of slices.Compare is negative, zero or positive according to
the first position at which the slices differ. -/
theorem slicesCompare_neg_iff_swap_pos (a b : List String) :
    (slicesCompare a b < 0 ↔ 0 < slicesCompare b a) ∧
    (slicesCompare a b = 0 ↔ a = b) := by
  induction a generalizing b with
  | nil => cases b <;> simp [slicesCompare]
  | cons x xs ih =>
    cases b with
    | nil => simp [slicesCompare]
    | cons y ys =>
      simp only [slicesCompare]
      cases hxy : strLess x y with
      | true =>
        have hyx := strLess_asymm x y hxy
        have hne : x ≠ y := by
          intro e
          subst e
          rw [strLess_irrefl] at hxy
          exact absurd hxy (by decide)
        simp [hyx, hne]
      | false =>
        cases hyx : strLess y x with
        | true =>
          have hne : x ≠ y := by
            intro e
            subst e
            rw [strLess_irrefl] at hyx
            exact absurd hyx (by decide)
          simp [hne]
        | false =>
          have e := strLess_connex x y hxy hyx
          subst e
          simpa using ih ys

/-! ## Go maps as association lists -/

/-- The keys after an assignment to a map. -/
theorem mapSet_keys {α : Type} (m : List (String × α)) (k : String) (v : α) :
    (mapSet m k v).map Prod.fst =
      if k ∈ m.map Prod.fst then m.map Prod.fst else m.map Prod.fst ++ [k] := by
  induction m with
  | nil => simp [mapSet]
  | cons e rest ih =>
    obtain ⟨k0, v0⟩ := e
    by_cases h : k0 = k
    · simp [mapSet, h]
    · have h2 : ¬ k = k0 := fun e => h e.symm
      simp only [mapSet, h, if_false, List.map_cons, ih, List.mem_cons, h2, false_or]
      split <;> simp

/-- An assignment to a key the map does not hold adds an entry at the end. -/
theorem mapSet_of_not_mem {α : Type} (m : List (String × α)) (k : String) (v : α)
    (h : k ∉ m.map Prod.fst) : mapSet m k v = m ++ [(k, v)] := by
  induction m with
  | nil => simp [mapSet]
  | cons e rest ih =>
    obtain ⟨k0, v0⟩ := e
    have h1 : ¬ k0 = k := fun e => h (by simp [e])
    have h2 : k ∉ rest.map Prod.fst := fun e => h (by simp [e])
    simp [mapSet, h1, ih h2]

/-- The keys after a run of assignments: no key twice if none before, and
exactly the old keys and the assigned ones. -/
theorem setAll_keys {α : Type} (f : Any → α) (ps : List (String × Any))
    (acc : List (String × α)) :
    ((acc.map Prod.fst).Nodup → ((setAll f ps acc).map Prod.fst).Nodup) ∧
    (∀ n, n ∈ (setAll f ps acc).map Prod.fst ↔
      n ∈ acc.map Prod.fst ∨ n ∈ ps.map Prod.fst) := by
  induction ps generalizing acc with
  | nil => simp [setAll]
  | cons p ps ih =>
    obtain ⟨h1, h2⟩ := ih (mapSet acc p.1 (f p.2))
    have hstep : setAll f (p :: ps) acc = setAll f ps (mapSet acc p.1 (f p.2)) := rfl
    rw [hstep]
    constructor
    · intro hnd
      apply h1
      rw [mapSet_keys]
      split
      · exact hnd
      · rename_i hmem
        exact List.Nodup.append hnd (by simp) (by simpa using hmem)
    · intro n
      rw [h2 n, mapSet_keys]
      split
      · rename_i hmem
        simp only [List.map_cons, List.mem_cons]
        constructor
        · rintro (h | h)
          · exact Or.inl h
          · exact Or.inr (Or.inr h)
        · rintro (h | h | h)
          · exact Or.inl h
          · exact Or.inl (h ▸ hmem)
          · exact Or.inr h
      · simp only [List.mem_append, List.mem_singleton, List.map_cons, List.mem_cons]
        tauto

/-- A run of assignments with pairwise different keys to the empty map
lists the entries in the order of iteration. -/
theorem setAll_of_nodup {α : Type} (f : Any → α) (ps : List (String × Any))
    (acc : List (String × α)) (hnd : (ps.map Prod.fst).Nodup)
    (hdis : ∀ n, n ∈ ps.map Prod.fst → n ∉ acc.map Prod.fst) :
    setAll f ps acc = acc ++ ps.map (fun p => (p.1, f p.2)) := by
  induction ps generalizing acc with
  | nil => simp [setAll]
  | cons p ps ih =>
    have hstep : setAll f (p :: ps) acc = setAll f ps (mapSet acc p.1 (f p.2)) := rfl
    have hp : p.1 ∉ acc.map Prod.fst := hdis p.1 (by simp)
    rw [hstep, mapSet_of_not_mem acc p.1 (f p.2) hp]
    simp only [List.map_cons, List.nodup_cons] at hnd
    rw [ih _ hnd.2]
    · simp
    · intro n hn
      simp only [List.map_append, List.map_cons, List.map_nil, List.mem_append,
        List.mem_singleton, not_or]
      refine ⟨hdis n (by simp [hn]), ?_⟩
      intro e
      subst e
      exact hnd.1 hn

/-! ## meta/meta.go: the decoding loops of apocMetaSchema -/

/-- The NodeProperty literal is built exactly from the descriptors that have
the four fields of a node property. -/
theorem nodeProperty_eq (pm : Any) :
    nodeProperty pm = if nodeDescOk pm then some (specNodeProperty pm) else none := by
  unfold nodeProperty nodeDescOk specNodeProperty entryField
  cases h : pm.asMap with
  | none => simp
  | some pi =>
    simp only [Option.isSome_some, Bool.true_and]
    cases h1 : (mapIndex pi "indexed").asBool <;> cases h2 : (mapIndex pi "unique").asBool <;>
      cases h3 : (mapIndex pi "existence").asBool <;>
      cases h4 : (mapIndex pi "type").asString <;> simp

/-- The RelProperty literal is built exactly from the descriptors that have
the four fields of a relationship property. -/
theorem relProperty_eq (pm : Any) :
    relProperty pm = if relDescOk pm then some (specRelProperty pm) else none := by
  unfold relProperty relDescOk specRelProperty entryField
  cases h : pm.asMap with
  | none => simp
  | some pi =>
    simp only [Option.isSome_some, Bool.true_and]
    cases h1 : (mapIndex pi "array").asBool <;> cases h2 : (mapIndex pi "indexed").asBool <;>
      cases h3 : (mapIndex pi "existence").asBool <;>
      cases h4 : (mapIndex pi "type").asString <;> simp

/-- The loop over the properties of a node entry performs the assignments
when every descriptor fits, and panics otherwise. -/
theorem nodePropsLoop_eq (ps : List (String × Any)) (props : List (String × NodeProperty))
    (allProps : List (String × Any)) :
    nodePropsLoop ps props allProps =
      bif ps.all (fun p => nodeDescOk p.2) then
        some (setAll specNodeProperty ps props, setAll (fun _ => Any.nil) ps allProps)
      else none := by
  induction ps generalizing props allProps with
  | nil => simp [nodePropsLoop, setAll]
  | cons p ps ih =>
    obtain ⟨n, pm⟩ := p
    by_cases h : nodeDescOk pm = true
    · simp [nodePropsLoop, nodeProperty_eq, h, ih, setAll]
    · simp [nodePropsLoop, nodeProperty_eq, h]

/-- The loop over the properties of a relationship entry performs the
assignments when every descriptor fits, and panics otherwise. -/
theorem relPropsLoop_eq (ps : List (String × Any)) (props : List (String × RelProperty))
    (allProps : List (String × Any)) :
    relPropsLoop ps props allProps =
      bif ps.all (fun p => relDescOk p.2) then
        some (setAll specRelProperty ps props, setAll (fun _ => Any.nil) ps allProps)
      else none := by
  induction ps generalizing props allProps with
  | nil => simp [relPropsLoop, setAll]
  | cons p ps ih =>
    obtain ⟨n, pm⟩ := p
    by_cases h : relDescOk pm = true
    · simp [relPropsLoop, relProperty_eq, h, ih, setAll]
    · simp [relPropsLoop, relProperty_eq, h]

/-- The type assertion to string succeeds on what compares equal to a
string. -/
theorem asString_of_eqString (v : Any) (s : String) (h : v.eqString s = true) :
    v.asString = some s := by
  cases v <;> simp_all [Any.eqString, Any.asString]

/-- The loop body of apocMetaSchema panics on an entry the decoder does not
accept, and otherwise appends one Node or one Relationship and records the
property names. -/
theorem apocEntry_eq (k : String) (v : Any) (m : Metadata) (allProps : List (String × Any)) :
    apocEntry k v m allProps =
      bif entryDecodes v then
        some (withEntry k v m, setAll (fun _ => Any.nil) (entryProperties v) allProps)
      else none := by
  unfold apocEntry entryDecodes withEntry entryIsNode entryCount entryProperties entryField
  cases hv : v.asMap with
  | none => simp
  | some kv =>
    simp only [Option.isSome_some, Bool.true_and]
    cases hp : (mapIndex kv "properties").asMap with
    | none =>
      cases hc : (mapIndex kv "count").asInt64 <;> simp
    | some ps =>
      cases ht : (mapIndex kv "type").eqString "node" with
      | true =>
        have hs := asString_of_eqString _ _ ht
        simp only [if_true, nodePropsLoop_eq, hs, Option.getD_some, Option.isSome_some,
          Bool.and_true]
        cases hall : ps.all (fun p => nodeDescOk p.2) with
        | false =>
          cases hc : (mapIndex kv "count").asInt64 <;> simp
        | true =>
          cases hc : (mapIndex kv "count").asInt64 <;> simp
      | false =>
        simp only [Bool.false_eq_true, if_false, relPropsLoop_eq, Option.getD_some,
          Option.isSome_some, Bool.and_true]
        cases hall : ps.all (fun p => relDescOk p.2) with
        | false =>
          cases hc : (mapIndex kv "count").asInt64 <;> simp
        | true =>
          cases hc : (mapIndex kv "count").asInt64 <;> simp

/-- The loop over the entries panics when some entry is not accepted, and
otherwise handles the entries in the order of iteration. -/
theorem apocEntries_eq (payload : List (String × Any)) (m : Metadata)
    (allProps : List (String × Any)) :
    apocEntries payload m allProps =
      bif payload.all (fun e => entryDecodes e.2) then
        some (payload.foldl (fun acc e => withEntry e.1 e.2 acc) m,
          payload.foldl (fun acc e => setAll (fun _ => Any.nil) (entryProperties e.2) acc)
            allProps)
      else none := by
  induction payload generalizing m allProps with
  | nil => simp [apocEntries]
  | cons e rest ih =>
    obtain ⟨k, v⟩ := e
    by_cases h : entryDecodes v = true
    · simp [apocEntries, apocEntry_eq, h, ih]
    · simp [apocEntries, apocEntry_eq, h]

/-- The entries accepted by the loop body leave the functions, procedures
and property names of the Metadata as they are. -/
theorem foldl_withEntry_frame (payload : List (String × Any)) (m : Metadata) :
    (payload.foldl (fun acc e => withEntry e.1 e.2 acc) m).Props = m.Props ∧
    (payload.foldl (fun acc e => withEntry e.1 e.2 acc) m).Funcs = m.Funcs ∧
    (payload.foldl (fun acc e => withEntry e.1 e.2 acc) m).Procs = m.Procs := by
  induction payload generalizing m with
  | nil => simp
  | cons e rest ih =>
    obtain ⟨h1, h2, h3⟩ := ih (withEntry e.1 e.2 m)
    rw [List.foldl_cons, h1, h2, h3]
    unfold withEntry
    split <;> simp

/-- The entries accepted by the loop body append, in the order of
iteration, one Node per entry of kind node and one Relationship per other
entry, provided no entry names a property twice. -/
theorem foldl_withEntry_nodes_rels (payload : List (String × Any)) (m : Metadata)
    (hnd : ∀ e ∈ payload, keysNodup (entryProperties e.2) = true) :
    (payload.foldl (fun acc e => withEntry e.1 e.2 acc) m).Nodes =
      m.Nodes ++ specNodes payload ∧
    (payload.foldl (fun acc e => withEntry e.1 e.2 acc) m).Rels =
      m.Rels ++ specRels payload := by
  induction payload generalizing m with
  | nil => simp [specNodes, specRels]
  | cons e rest ih =>
    obtain ⟨h1, h2⟩ := ih (withEntry e.1 e.2 m) (fun x hx => hnd x (by simp [hx]))
    have he : ((entryProperties e.2).map Prod.fst).Nodup := by
      have := hnd e (by simp)
      simpa [keysNodup] using this
    have hn := setAll_of_nodup specNodeProperty (entryProperties e.2) [] he (by simp)
    have hr := setAll_of_nodup specRelProperty (entryProperties e.2) [] he (by simp)
    rw [List.foldl_cons, h1, h2]
    unfold withEntry
    by_cases hk : entryIsNode e.2 = true
    · simp [hk, specNodes, specRels, specNode, hn]
    · simp [hk, specNodes, specRels, specRel, hr]

/-- The property names recorded by the loop over the entries: no name twice
if none before, and exactly the old names and those of the entries. -/
theorem foldl_setAll_keys (payload : List (String × Any)) (allProps : List (String × Any)) :
    ((allProps.map Prod.fst).Nodup →
      ((payload.foldl (fun acc e => setAll (fun _ => Any.nil) (entryProperties e.2) acc)
        allProps).map Prod.fst).Nodup) ∧
    (∀ n, n ∈ (payload.foldl (fun acc e => setAll (fun _ => Any.nil) (entryProperties e.2) acc)
        allProps).map Prod.fst ↔
      n ∈ allProps.map Prod.fst ∨ ∃ e ∈ payload, n ∈ (entryProperties e.2).map Prod.fst) := by
  induction payload generalizing allProps with
  | nil => simp
  | cons e rest ih =>
    obtain ⟨h1, h2⟩ := ih (setAll (fun _ => Any.nil) (entryProperties e.2) allProps)
    obtain ⟨k1, k2⟩ := setAll_keys (fun _ => Any.nil) (entryProperties e.2) allProps
    rw [List.foldl_cons]
    constructor
    · intro hnd
      exact h1 (k1 hnd)
    · intro n
      rw [h2 n, k2 n]
      constructor
      · rintro ((h | h) | ⟨x, hx, h⟩)
        · exact Or.inl h
        · exact Or.inr ⟨e, by simp, h⟩
        · exact Or.inr ⟨x, by simp [hx], h⟩
      · rintro (h | ⟨x, hx, h⟩)
        · exact Or.inl (Or.inl h)
        · rcases List.mem_cons.1 hx with hx | hx
          · subst hx
            exact Or.inl (Or.inr h)
          · exact Or.inr ⟨x, hx, h⟩

/-! ## Sorting -/

/-- The result of slices.SortFunc holds the elements of its argument. -/
theorem sortFunc_perm {α : Type} (less : α → α → Bool) (x : List α) :
    (sortFunc less x).Perm x :=
  List.perm_insertionSort _ x

/-- The result of slices.SortFunc is in ascending order when `less` is
asymmetric and its complement transitive. -/
theorem sortFunc_sorted {α : Type} (less : α → α → Bool)
    (hasymm : ∀ a b, less a b = true → less b a = false)
    (hneg : ∀ a b c, less b a = false → less c b = false → less c a = false)
    (x : List α) :
    (sortFunc less x).Pairwise (fun a b => less b a = false) := by
  haveI : IsTotal α (fun a b => less b a = false) :=
    ⟨fun a b => by
      cases h : less b a with
      | false => exact Or.inl rfl
      | true => exact Or.inr (hasymm b a h)⟩
  haveI : IsTrans α (fun a b => less b a = false) :=
    ⟨fun a b c hab hbc => hneg a b c hab hbc⟩
  exact List.sorted_insertionSort _ x

/-- The result of sort.Strings is in ascending order, strictly so when no
string occurs twice. -/
theorem sortStrings_sorted (x : List String) :
    (sortStrings x).Pairwise (fun a b => strLess b a = false) ∧
    (x.Nodup → (sortStrings x).Pairwise (fun a b => strLess a b = true)) := by
  have hs := sortFunc_sorted strLess strLess_asymm strLess_negtrans x
  refine ⟨hs, ?_⟩
  intro hnd
  have hnd2 : (sortStrings x).Nodup := (sortFunc_perm strLess x).nodup_iff.2 hnd
  have hboth := hs.and hnd2
  refine hboth.imp ?_
  intro a b hab
  cases h : strLess a b with
  | true => rfl
  | false => exact absurd (strLess_connex a b h hab.1) hab.2

/-- The comparison of slices of strings is transitive. -/
theorem slicesCompare_trans (a b c : List String) (hab : slicesCompare a b < 0)
    (hbc : slicesCompare b c < 0) : slicesCompare a c < 0 := by
  induction a generalizing b c with
  | nil =>
    cases b with
    | nil => simp [slicesCompare] at hab
    | cons y ys =>
      cases c with
      | nil => simp [slicesCompare] at hbc
      | cons z zs => simp [slicesCompare]
  | cons x xs ih =>
    cases b with
    | nil => simp [slicesCompare] at hab
    | cons y ys =>
      cases c with
      | nil => simp [slicesCompare] at hbc
      | cons z zs =>
        simp only [slicesCompare] at hab hbc ⊢
        cases hxy : strLess x y with
        | true =>
          cases hyz : strLess y z with
          | true => simp [strLess_trans x y z hxy hyz]
          | false =>
            cases hzy : strLess z y with
            | true => simp [hyz, hzy] at hbc
            | false =>
              have e := strLess_connex y z hyz hzy
              subst e
              simp [hxy]
        | false =>
          cases hyx : strLess y x with
          | true => simp [hxy, hyx] at hab
          | false =>
            have e := strLess_connex x y hxy hyx
            subst e
            simp only [hxy, Bool.false_eq_true, if_false] at hab
            cases hxz : strLess x z with
            | true => simp
            | false =>
              cases hzx : strLess z x with
              | true => simp [hxz, hzx] at hbc
              | false =>
                simp only [hxz, hzx, Bool.false_eq_true, if_false] at hbc ⊢
                exact ih ys zs hab hbc

/-- The comparison that sorts the nodes is asymmetric. -/
theorem nodeLess_asymm (a b : Node) (h : nodeLess a b = true) : nodeLess b a = false := by
  simp only [nodeLess, decide_eq_true_eq, decide_eq_false_iff_not] at h ⊢
  have := (slicesCompare_neg_iff_swap_pos a.Labels b.Labels).1.1 h
  omega

/-- The complement of the comparison that sorts the nodes is transitive. -/
theorem nodeLess_negtrans (a b c : Node) (hba : nodeLess b a = false)
    (hcb : nodeLess c b = false) : nodeLess c a = false := by
  simp only [nodeLess, decide_eq_false_iff_not] at hba hcb ⊢
  intro hca
  by_cases hab : slicesCompare a.Labels b.Labels < 0
  · exact hcb (slicesCompare_trans _ _ _ hca hab)
  · have h1 := (slicesCompare_neg_iff_swap_pos b.Labels a.Labels).1
    have h0 : slicesCompare a.Labels b.Labels = 0 := by
      have : ¬ 0 < slicesCompare a.Labels b.Labels := fun h => hba (h1.2 h)
      omega
    have e := (slicesCompare_neg_iff_swap_pos a.Labels b.Labels).2.1 h0
    rw [← e] at hcb
    exact hcb hca

/-! ## meta/meta.go: apocMetaSchema -/

/-- The type assertion to a mapping succeeds on mappings only. -/
theorem asMap_eq_some (v : Any) (kvs : List (String × Any)) (h : v.asMap = some kvs) :
    v = Any.map kvs := by
  cases v with
  | map x =>
    simp only [Any.asMap, Option.some.injEq] at h
    rw [h]
  | _ => simp [Any.asMap] at h

/-- The decoding of a record that carries `payload`: a panic when some entry
is not accepted; otherwise the entries in the order of iteration, followed
by the three sorts. -/
theorem apocDecode_eq (rec : neo4j.Record) (payload : List (String × Any)) (m : Metadata)
    (hrec : rec.Values[0]? = some (Any.map payload)) :
    apocDecode rec m =
      bif payload.all (fun e => entryDecodes e.2) then
        some
          { Nodes := sortFunc nodeLess (payload.foldl (fun acc e => withEntry e.1 e.2 acc) m).Nodes
            Rels := sortFunc relLess (payload.foldl (fun acc e => withEntry e.1 e.2 acc) m).Rels
            Funcs := m.Funcs
            Procs := m.Procs
            Props := sortStrings (m.Props ++
              (payload.foldl (fun acc e => setAll (fun _ => Any.nil) (entryProperties e.2) acc)
                []).map Prod.fst) }
      else none := by
  obtain ⟨h1, h2, h3⟩ := foldl_withEntry_frame payload m
  unfold apocDecode
  simp only [hrec, Any.asMap, apocEntries_eq]
  cases payload.all (fun e => entryDecodes e.2) with
  | false => simp
  | true => simp [h1, h2, h3]

/-- The call of apocMetaSchema on an open connection whose driver answers
the statement with the single record `rec`: one session, one statement, and
the decoding of `rec`. -/
theorem apocMetaSchema_eq (c : Conn) (d : neo4j.Driver) (rec : neo4j.Record) (m : Metadata)
    (hd : c.Driver = some d)
    (hrun : d.runAnswer c.DBName "CALL apoc.meta.schema" = .ok [rec]) :
    apocMetaSchema c m =
      (apocDecode rec m).map (fun m1 =>
        ({ c with Driver := some { d with issued := d.issued ++
            [neo4j.Call.newSession c.DBName, neo4j.Call.run c.DBName "CALL apoc.meta.schema"] } },
          m1, none)) := by
  unfold apocMetaSchema
  simp only [Conn.Session, hd, neo4j.Driver.NewSession, neo4j.Driver.Run, hrun, neo4j.Single]
  cases apocDecode rec m <;> simp

/-- A call of apocMetaSchema that returns without error has decoded a
record. -/
theorem apocMetaSchema_ok_inv (c c1 : Conn) (m m1 : Metadata)
    (h : apocMetaSchema c m = some (c1, m1, none)) :
    ∃ rec payload, rec.Values[0]? = some (Any.map payload) ∧ apocDecode rec m = some m1 := by
  unfold apocMetaSchema at h
  cases hs : c.Session with
  | none => simp [hs] at h
  | some ds =>
    obtain ⟨d, s⟩ := ds
    simp only [hs] at h
    cases hr : (d.Run s "CALL apoc.meta.schema").2 with
    | error e =>
      have : d.Run s "CALL apoc.meta.schema" = ((d.Run s "CALL apoc.meta.schema").1, .error e) := by
        rw [← hr]
      rw [this] at h
      simp at h
    | ok rows =>
      have : d.Run s "CALL apoc.meta.schema" = ((d.Run s "CALL apoc.meta.schema").1, .ok rows) := by
        rw [← hr]
      rw [this] at h
      simp only at h
      cases hsg : neo4j.Single rows with
      | error e => simp [hsg] at h
      | ok rec =>
        simp only [hsg] at h
        cases hdec : apocDecode rec m with
        | none => simp [hdec] at h
        | some m2 =>
          simp only [hdec, Option.some.injEq, Prod.mk.injEq, and_true] at h
          refine ⟨rec, ?_⟩
          unfold apocDecode at hdec
          cases hv : rec.Values[0]? with
          | none => simp [hv] at hdec
          | some v0 =>
            cases hm : v0.asMap with
            | none => simp [hv, hm] at hdec
            | some kvs =>
              have hv0 : v0 = Any.map kvs := asMap_eq_some v0 kvs hm
              refine ⟨kvs, by rw [hv0], ?_⟩
              rw [← h.2]
              unfold apocDecode
              simp only [hv, hm]
              simp only [hv, hm] at hdec
              exact hdec

/-- C4: on an open connection whose driver answers the introspection call
with one record that carries a well-formed payload, apocMetaSchema, called
as FetchMetadata calls it, returns no error and a Metadata whose Nodes are,
up to order, one Node per entry of kind node (Labels the key, Count the
count, Properties the NodeProperty of every property name), whose Rels are,
up to order, one Relationship per other entry (Type the key, Count the
count, Properties the RelProperty of every property name), and whose Props
hold every property name of every entry once and nothing else. -/
theorem apocMetaSchema_decodes_well_formed (c : Conn) (d : neo4j.Driver) (rec : neo4j.Record)
    (payload : List (String × Any)) (funcs procs : List Func)
    (hd : c.Driver = some d)
    (hrun : d.runAnswer c.DBName "CALL apoc.meta.schema" = .ok [rec])
    (hrec : rec.Values[0]? = some (Any.map payload))
    (hwf : payloadWellFormed payload = true) :
    ∃ c1 m, apocMetaSchema c { Metadata.zero with Funcs := funcs, Procs := procs } =
        some (c1, m, none) ∧
      m.Nodes.Perm (specNodes payload) ∧ m.Rels.Perm (specRels payload) ∧
      m.Props.Nodup ∧
      (∀ n, n ∈ m.Props ↔ ∃ e ∈ payload, n ∈ (entryProperties e.2).map Prod.fst) ∧
      m.Funcs = funcs ∧ m.Procs = procs := by
  simp only [payloadWellFormed, Bool.and_eq_true, List.all_eq_true, entryWellFormed] at hwf
  have hall : payload.all (fun e => entryDecodes e.2) = true := by
    rw [List.all_eq_true]
    intro e he
    exact (hwf.2 e he).1.2
  have hnd : ∀ e ∈ payload, keysNodup (entryProperties e.2) = true :=
    fun e he => (hwf.2 e he).2
  obtain ⟨hn, hr⟩ := foldl_withEntry_nodes_rels payload
    { Metadata.zero with Funcs := funcs, Procs := procs } hnd
  obtain ⟨k1, k2⟩ := foldl_setAll_keys payload []
  rw [apocMetaSchema_eq c d rec _ hd hrun, apocDecode_eq rec payload _ hrec, hall]
  simp only [cond_true, Option.map_some']
  refine ⟨_, _, rfl, ?_, ?_, ?_, ?_, rfl, rfl⟩
  · refine (sortFunc_perm nodeLess _).trans ?_
    rw [hn]
    simp [Metadata.zero]
  · refine (sortFunc_perm relLess _).trans ?_
    rw [hr]
    simp [Metadata.zero]
  · refine (sortFunc_perm strLess _).nodup_iff.2 ?_
    simpa [Metadata.zero] using k1 (by simp)
  · intro n
    refine ((sortFunc_perm strLess _).mem_iff).trans ?_
    simpa [Metadata.zero] using k2 n

/-- C4 at the payload of the specification. -/
theorem apocMetaSchema_decodes_well_formed_witness :
    ∃ c1 m, apocMetaSchema (payloadConn schemaPayload)
        { Metadata.zero with Funcs := [], Procs := [] } = some (c1, m, none) ∧
      m.Nodes.Perm (specNodes schemaPayload) ∧ m.Rels.Perm (specRels schemaPayload) ∧
      m.Props.Nodup ∧
      (∀ n, n ∈ m.Props ↔ ∃ e ∈ schemaPayload, n ∈ (entryProperties e.2).map Prod.fst) ∧
      m.Funcs = [] ∧ m.Procs = [] :=
  apocMetaSchema_decodes_well_formed (payloadConn schemaPayload)
    (runDriver (fun _ => .ok [payloadRecord schemaPayload])) (payloadRecord schemaPayload)
    schemaPayload [] [] rfl rfl rfl (by decide)

/-- The Metadata decoded from the payload of the specification. -/
theorem apocMetaSchema_schemaPayload :
    (apocMetaSchema (payloadConn schemaPayload) Metadata.zero).map
        (fun r => (r.2.1.Nodes, r.2.1.Rels, r.2.1.Props, r.2.2)) =
      some ([personNode], [knowsRel],
        ["id", "since"], none) := by
  decide

/-- C5: when apocMetaSchema is called with no property names collected yet,
as FetchMetadata calls it, and returns no error, the Props of the Metadata
are strictly ascending, the Nodes ascend by `slices.Compare` of their Labels
and the Rels ascend by Type. -/
theorem apocMetaSchema_sorted (c c1 : Conn) (m m1 : Metadata) (hprops : m.Props = [])
    (h : apocMetaSchema c m = some (c1, m1, none)) :
    m1.Props.Pairwise (fun a b => strLess a b = true) ∧
    m1.Nodes.Pairwise (fun a b => slicesCompare a.Labels b.Labels ≤ 0) ∧
    m1.Rels.Pairwise (fun a b => strLess b.Typ a.Typ = false) := by
  obtain ⟨rec, payload, hrec, hdec⟩ := apocMetaSchema_ok_inv c c1 m m1 h
  rw [apocDecode_eq rec payload m hrec] at hdec
  cases hall : payload.all (fun e => entryDecodes e.2) with
  | false => simp [hall] at hdec
  | true =>
    simp only [hall, cond_true, Option.some.injEq] at hdec
    subst hdec
    simp only [hprops, List.nil_append]
    refine ⟨?_, ?_, ?_⟩
    · exact (sortStrings_sorted _).2 ((foldl_setAll_keys payload []).1 (by simp))
    · refine (sortFunc_sorted nodeLess nodeLess_asymm nodeLess_negtrans _).imp ?_
      intro a b hab
      simp only [nodeLess, decide_eq_false_iff_not] at hab
      have := (slicesCompare_neg_iff_swap_pos b.Labels a.Labels).1
      by_contra hcon
      exact hab (this.2 (by omega))
    · exact sortFunc_sorted relLess (fun a b => strLess_asymm a.Typ b.Typ)
        (fun a b c => strLess_negtrans a.Typ b.Typ c.Typ) _

/-- C5 at the payload of the specification. -/
theorem apocMetaSchema_sorted_witness :
    ∃ c1 m1, apocMetaSchema (payloadConn schemaPayload) Metadata.zero = some (c1, m1, none) ∧
      m1.Props.Pairwise (fun a b => strLess a b = true) ∧
      m1.Nodes.Pairwise (fun a b => slicesCompare a.Labels b.Labels ≤ 0) ∧
      m1.Rels.Pairwise (fun a b => strLess b.Typ a.Typ = false) := by
  have h : ∃ c1 m1, apocMetaSchema (payloadConn schemaPayload) Metadata.zero =
      some (c1, m1, none) := ⟨_, _, rfl⟩
  obtain ⟨c1, m1, h⟩ := h
  exact ⟨c1, m1, h, apocMetaSchema_sorted _ c1 _ m1 rfl h⟩

/-- C6 (counterexample): the only entry of `untypedPayload` has no `type`,
yet apocMetaSchema returns no error and a Metadata that holds the entry as
a Relationship. -/
theorem apocMetaSchema_accepts_untyped_entry :
    untypedPayload.all (fun e => (entryField e.2 "type").asString.isNone) = true ∧
    (apocMetaSchema (payloadConn untypedPayload) Metadata.zero).map
        (fun r => (r.2.1.Nodes, r.2.1.Rels, r.2.1.Props, r.2.2)) =
      some ([], [{ Count := 1, Typ := "X", Properties := [] }], [], none) := by
  decide

/-- C6 (amended): on an open connection whose driver answers the
introspection call with one record that carries `payload`, apocMetaSchema
panics, and so returns no Metadata at all, as soon as some entry is not
accepted by the decoder: it is no mapping, or its `count` is missing or no
int64, or its `properties` are missing or no mapping, or one of its property
descriptors is no mapping or lacks a field of its kind or has it in another
shape. -/
theorem apocMetaSchema_panics_on_rejected_entry (c : Conn) (d : neo4j.Driver)
    (rec : neo4j.Record) (payload : List (String × Any)) (m : Metadata)
    (hd : c.Driver = some d)
    (hrun : d.runAnswer c.DBName "CALL apoc.meta.schema" = .ok [rec])
    (hrec : rec.Values[0]? = some (Any.map payload))
    (hbad : ∃ e ∈ payload, entryDecodes e.2 = false) :
    apocMetaSchema c m = none := by
  have hall : payload.all (fun e => entryDecodes e.2) = false := by
    rw [List.all_eq_false]
    obtain ⟨e, he, hf⟩ := hbad
    exact ⟨e, he, by simp [hf]⟩
  rw [apocMetaSchema_eq c d rec m hd hrun, apocDecode_eq rec payload m hrec, hall]
  rfl

/-- C6 (amended) at a sample input: a node entry without `count`. -/
theorem apocMetaSchema_panics_on_rejected_entry_witness :
    apocMetaSchema (payloadConn uncountedPayload) Metadata.zero = none :=
  apocMetaSchema_panics_on_rejected_entry (payloadConn uncountedPayload)
    (runDriver (fun _ => .ok [payloadRecord uncountedPayload]))
    (payloadRecord uncountedPayload) uncountedPayload Metadata.zero rfl rfl rfl
    ⟨("Person", uncountedEntry), List.mem_cons_self _ _, by decide⟩

/-! ## meta/meta.go: the capability probe of FetchMetadata -/

/-- The loop of sort.Search needs no more fuel than `j - i`: one more round
of fuel does not change its result, whatever the predicate. -/
theorem searchLoop_fuel (f : Nat → Bool) :
    ∀ fuel i j, j - i ≤ fuel → searchLoop f (fuel + 1) i j = searchLoop f fuel i j := by
  intro fuel
  induction fuel with
  | zero =>
    intro i j h
    have hij : ¬ i < j := by omega
    simp [searchLoop, hij]
  | succ fuel ih =>
    intro i j h
    by_cases hij : i < j
    · have e1 : searchLoop f (fuel + 1 + 1) i j =
          (if !f ((i + j) / 2) then searchLoop f (fuel + 1) ((i + j) / 2 + 1) j
           else searchLoop f (fuel + 1) i ((i + j) / 2)) := by
        simp [searchLoop, hij]
      have e2 : searchLoop f (fuel + 1) i j =
          (if !f ((i + j) / 2) then searchLoop f fuel ((i + j) / 2 + 1) j
           else searchLoop f fuel i ((i + j) / 2)) := by
        simp [searchLoop, hij]
      rw [e1, e2, ih _ _ (by omega), ih _ _ (by omega)]
    · simp [searchLoop, hij]

/-- On a predicate that stays true once it is true, the loop of sort.Search
with enough fuel ends at the least position where the predicate holds. -/
theorem searchLoop_least (f : Nat → Bool) (n : Nat)
    (hmono : ∀ a b, a ≤ b → b < n → f a = true → f b = true) :
    ∀ fuel i j, j - i ≤ fuel → i ≤ j → j ≤ n →
      (∀ k, k < i → f k = false) → (∀ k, j ≤ k → k < n → f k = true) →
      searchLoop f fuel i j ≤ n ∧
      (∀ k, k < searchLoop f fuel i j → f k = false) ∧
      (∀ k, searchLoop f fuel i j ≤ k → k < n → f k = true) := by
  intro fuel
  induction fuel with
  | zero =>
    intro i j hfuel hij hjn hlo hhi
    have e : i = j := by omega
    subst e
    exact ⟨hjn, hlo, hhi⟩
  | succ fuel ih =>
    intro i j hfuel hij hjn hlo hhi
    by_cases hlt : i < j
    · have hh1 : i ≤ (i + j) / 2 := by omega
      have hh2 : (i + j) / 2 < j := by omega
      cases hf : f ((i + j) / 2) with
      | false =>
        have hstep : searchLoop f (fuel + 1) i j = searchLoop f fuel ((i + j) / 2 + 1) j := by
          simp [searchLoop, hlt, hf]
        rw [hstep]
        apply ih _ _ (by omega) (by omega) hjn _ hhi
        intro k hk
        cases hfk : f k with
        | false => rfl
        | true =>
          have := hmono k ((i + j) / 2) (by omega) (by omega) hfk
          rw [hf] at this
          exact absurd this (by decide)
      | true =>
        have hstep : searchLoop f (fuel + 1) i j = searchLoop f fuel i ((i + j) / 2) := by
          simp [searchLoop, hlt, hf]
        rw [hstep]
        apply ih _ _ (by omega) hh1 (by omega) hlo
        intro k hk hkn
        exact hmono ((i + j) / 2) k hk hkn hf
    · have e : i = j := by omega
      subst e
      have hstep : searchLoop f (fuel + 1) i i = i := by
        simp [searchLoop]
      rw [hstep]
      exact ⟨hjn, hlo, hhi⟩

/-- In a list in ascending order, an earlier element is not above a later
one. -/
theorem sorted_getElem? (l : List String) (hs : l.Pairwise (fun a b => strLess b a = false))
    (i j : Nat) (a b : String) (hij : i ≤ j) (hi : l[i]? = some a) (hj : l[j]? = some b) :
    strLess b a = false := by
  rcases Nat.lt_or_eq_of_le hij with h | h
  · rw [List.pairwise_iff_getElem] at hs
    obtain ⟨hi1, hi2⟩ := List.getElem?_eq_some_iff.1 hi
    obtain ⟨hj1, hj2⟩ := List.getElem?_eq_some_iff.1 hj
    have := hs i j hi1 hj1 h
    rw [hi2, hj2] at this
    exact this
  · subst h
    rw [hi] at hj
    cases hj
    exact strLess_irrefl a

/-- On a procedure list in ascending byte order of the names, the
capability probe answers true exactly when the list names
"apoc.meta.schema". -/
theorem hasApoc_iff_of_byte_sorted (procs : List Func)
    (hs : (procs.map Func.Name).Pairwise (fun a b => strLess b a = false)) :
    hasApoc procs = true ↔ "apoc.meta.schema" ∈ procs.map Func.Name := by
  have hname : ∀ (i : Nat) (p : Func), procs[i]? = some p → (procs.map Func.Name)[i]? = some p.Name := by
    intro i p h
    simp [h]
  have hmono : ∀ a b, a ≤ b → b < procs.length →
      (match procs[a]? with
        | some p => !strLess p.Name "apoc.meta.schema"
        | none => false) = true →
      (match procs[b]? with
        | some p => !strLess p.Name "apoc.meta.schema"
        | none => false) = true := by
    intro a b hab hb
    have ha : a < procs.length := by omega
    rw [List.getElem?_eq_getElem ha, List.getElem?_eq_getElem hb]
    simp only [Bool.not_eq_true']
    intro hfa
    exact strLess_negtrans _ _ _ hfa
      (sorted_getElem? _ hs a b _ _ hab (hname a _ (List.getElem?_eq_getElem ha))
        (hname b _ (List.getElem?_eq_getElem hb)))
  obtain ⟨h1, h2, h3⟩ := searchLoop_least _ procs.length hmono procs.length 0 procs.length
    (by omega) (by omega) (by omega) (by intro k hk; omega) (by intro k hk hkn; omega)
  unfold hasApoc sortSearch
  constructor
  · intro h
    cases hp : procs[searchLoop (fun i =>
        match procs[i]? with
        | some p => !strLess p.Name "apoc.meta.schema"
        | none => false) procs.length 0 procs.length]? with
    | none => simp [hp] at h
    | some p =>
      simp only [hp, decide_eq_true_eq] at h
      rw [← h]
      exact List.mem_map.2 ⟨p, List.mem_iff_getElem?.2 ⟨_, hp⟩, rfl⟩
  · intro h
    obtain ⟨p, hp, hpn⟩ := List.mem_map.1 h
    obtain ⟨k, hk⟩ := List.mem_iff_getElem?.1 hp
    have hkn : k < procs.length := (List.getElem?_eq_some_iff.1 hk).1
    have hfk : (match procs[k]? with
        | some p => !strLess p.Name "apoc.meta.schema"
        | none => false) = true := by
      simp [hk, hpn, strLess_irrefl]
    have hle : searchLoop (fun i =>
        match procs[i]? with
        | some p => !strLess p.Name "apoc.meta.schema"
        | none => false) procs.length 0 procs.length ≤ k := by
      by_contra hcon
      have := h2 k (by omega)
      rw [hfk] at this
      exact absurd this (by decide)
    have hidx := h3 _ (Nat.le_refl _) (by omega)
    cases hq : procs[searchLoop (fun i =>
        match procs[i]? with
        | some p => !strLess p.Name "apoc.meta.schema"
        | none => false) procs.length 0 procs.length]? with
    | none =>
      have := List.getElem?_eq_none_iff.1 hq
      omega
    | some q =>
      simp only [hq, Bool.not_eq_true'] at hidx
      have hqk := sorted_getElem? _ hs _ k _ _ hle (hname _ _ hq) (hname _ _ hk)
      rw [hpn] at hqk
      have e := strLess_connex _ _ hidx hqk
      simp only [hq, e, decide_True]

/-- C3 (the code at the failing input): the procedure list `mixedCaseProcs`
is in the order of `toLower(name)` and contains "apoc.meta.schema", yet the
search does not find it, and FetchMetadata runs the three statements of
fetchSimple and never "CALL apoc.meta.schema". -/
theorem hasApoc_misses_in_mixed_case_list :
    (mixedCaseProcs.map (fun f => toLower f.Name)).Pairwise (fun a b => strLess a b = true) ∧
    "apoc.meta.schema" ∈ mixedCaseProcs.map Func.Name ∧
    hasApoc mixedCaseProcs = false ∧
    (FetchMetadata mixedCaseConn).map (fun r => (issuedOn r.1, r.2.2)) =
      some ([neo4j.Call.newSession "neo4j", neo4j.Call.run "neo4j" cypF,
             neo4j.Call.newSession "neo4j", neo4j.Call.run "neo4j" cypP,
             neo4j.Call.newSession "neo4j", neo4j.Call.run "neo4j" cypLs,
             neo4j.Call.newSession "neo4j", neo4j.Call.run "neo4j" cypRels,
             neo4j.Call.newSession "neo4j", neo4j.Call.run "neo4j" cypProps], none) := by
  refine ⟨by decide, by decide, by decide, by decide⟩

/-! ## graph/result.go: Index and Value on any Result -/

/-- The loop of Index stops at the least position that holds the key. -/
theorem indexLoop_least (key : String) (ks : List String) (i : Int) (h : key ∈ ks) :
    ∃ n : Nat, Result.indexLoop key ks i = i + n ∧ ks[n]? = some key ∧
      ∀ j, j < n → ks[j]? ≠ some key := by
  induction ks generalizing i with
  | nil => simp at h
  | cons k ks ih =>
    by_cases hk : k = key
    · refine ⟨0, ?_, ?_, ?_⟩
      · simp [Result.indexLoop, hk]
      · simp [hk]
      · intro j hj
        omega
    · have hks : key ∈ ks := by
        rcases List.mem_cons.1 h with e | e
        · exact absurd e.symm hk
        · exact e
      obtain ⟨n, h1, h2, h3⟩ := ih (i + 1) hks
      refine ⟨n + 1, ?_, ?_, ?_⟩
      · simp only [Result.indexLoop, hk, if_false, h1]
        push_cast
        omega
      · simpa using h2
      · intro j hj
        cases j with
        | zero => simpa using hk
        | succ j =>
          have := h3 j (by omega)
          simpa using this

/-- On a Result whose keys and values are equally many, a key that occurs is
found by Index at the least position that holds it, and Value returns the
value at that position with true. -/
theorem lookup_of_mem (r : Result) (key : String)
    (hlen : r.Keys.length = r.Values.length) (hmem : key ∈ r.Keys) :
    ∃ i : Nat, r.Index key = i ∧ r.Keys[i]? = some key ∧
      (∀ j, j < i → r.Keys[j]? ≠ some key) ∧
      ∃ v, r.Values[i]? = some v ∧ r.Value key = some (v, true) := by
  obtain ⟨n, h1, h2, h3⟩ := indexLoop_least key r.Keys 0 hmem
  have hidx : r.Index key = n := by
    simp only [Result.Index, h1]
    omega
  have hn : n < r.Values.length := by
    rw [← hlen]
    exact (List.getElem?_eq_some_iff.1 h2).1
  refine ⟨n, hidx, h2, h3, r.Values[n], List.getElem?_eq_getElem hn, ?_⟩
  have hnneg : ¬ ((n : Int) < 0) := by omega
  simp only [Result.Value, hidx, hnneg, if_false, Int.toNat_ofNat,
    List.getElem?_eq_getElem hn]

/-- A key that does not occur gives Index -1 and Value (nil, false). -/
theorem lookup_of_not_mem (r : Result) (key : String) (h : key ∉ r.Keys) :
    r.Index key = -1 ∧ r.Value key = some (Any.nil, false) := by
  have hidx : r.Index key = -1 := indexLoop_of_not_mem key r.Keys 0 h
  exact ⟨hidx, by simp [Result.Value, hidx]⟩

/-- C11: on a Result whose keys and values are equally many, Index is -1
exactly when no key equals the argument and is otherwise the least position
whose key equals it; Value is (nil, false) exactly when no key equals the
argument and is otherwise the value at that least position with true. -/
theorem Index_Value_first_match (r : Result) (key : String)
    (hlen : r.Keys.length = r.Values.length) :
    (r.Index key = -1 ↔ key ∉ r.Keys) ∧
    (key ∈ r.Keys →
      ∃ i : Nat, r.Index key = i ∧ r.Keys[i]? = some key ∧
        (∀ j, j < i → r.Keys[j]? ≠ some key) ∧
        ∃ v, r.Values[i]? = some v ∧ r.Value key = some (v, true)) ∧
    (r.Value key = some (Any.nil, false) ↔ key ∉ r.Keys) := by
  refine ⟨⟨?_, fun h => (lookup_of_not_mem r key h).1⟩, lookup_of_mem r key hlen,
    ⟨?_, fun h => (lookup_of_not_mem r key h).2⟩⟩
  · intro h hmem
    obtain ⟨i, hi, _⟩ := lookup_of_mem r key hlen hmem
    rw [hi] at h
    omega
  · intro h hmem
    obtain ⟨i, _, _, _, v, _, hv⟩ := lookup_of_mem r key hlen hmem
    rw [hv] at h
    simp at h

/-- C11 at a sample input: in a Result with the key "a" at the positions 0
and 2, the key "a" is found at a least position and the key "c" is not
found. -/
theorem Index_Value_first_match_witness :
    (∃ i : Nat, (Result.addAll [("a", Any.int64 1), ("b", Any.int64 2),
          ("a", Any.int64 3)]).Index "a" = i ∧
        (Result.addAll [("a", Any.int64 1), ("b", Any.int64 2),
          ("a", Any.int64 3)]).Keys[i]? = some "a" ∧
        (∀ j, j < i → (Result.addAll [("a", Any.int64 1), ("b", Any.int64 2),
          ("a", Any.int64 3)]).Keys[j]? ≠ some "a") ∧
        ∃ v, (Result.addAll [("a", Any.int64 1), ("b", Any.int64 2),
            ("a", Any.int64 3)]).Values[i]? = some v ∧
          (Result.addAll [("a", Any.int64 1), ("b", Any.int64 2),
            ("a", Any.int64 3)]).Value "a" = some (v, true)) ∧
    (Result.addAll [("a", Any.int64 1), ("b", Any.int64 2), ("a", Any.int64 3)]).Index "c" =
      -1 :=
  ⟨(Index_Value_first_match _ "a" rfl).2.1 (by decide),
   (Index_Value_first_match _ "c" rfl).1.2 (by decide)⟩

/-- C12: the empty Result has as many keys as values; Add lengthens both
sequences by one, puts the new key and the new value at the last position
and leaves the earlier positions as they were, so it preserves the equality
of the lengths; and on a Result with equally many keys and values Value
returns for every key, without an index out of range. -/
theorem Add_keeps_lengths_equal :
    Result.empty.Keys.length = Result.empty.Values.length ∧
    ∀ (r : Result) (k : String) (v : Any),
      (r.Add k v).Keys.length = r.Keys.length + 1 ∧
      (r.Add k v).Values.length = r.Values.length + 1 ∧
      (r.Keys.length = r.Values.length →
        (r.Add k v).Keys.length = (r.Add k v).Values.length) ∧
      (r.Add k v).Keys[r.Keys.length]? = some k ∧
      (r.Add k v).Values[r.Values.length]? = some v ∧
      (∀ i, i < r.Keys.length → (r.Add k v).Keys[i]? = r.Keys[i]?) ∧
      (∀ i, i < r.Values.length → (r.Add k v).Values[i]? = r.Values[i]?) ∧
      (r.Keys.length = r.Values.length → ∀ key, ∃ res, r.Value key = some res) := by
  refine ⟨rfl, ?_⟩
  intro r k v
  refine ⟨by simp [Result.Add], by simp [Result.Add], ?_, by simp [Result.Add],
    by simp [Result.Add], ?_, ?_, ?_⟩
  · intro h
    simp [Result.Add, h]
  · intro i hi
    simp only [Result.Add]
    exact List.getElem?_append_left hi
  · intro i hi
    simp only [Result.Add]
    exact List.getElem?_append_left hi
  · intro hlen key
    by_cases hmem : key ∈ r.Keys
    · obtain ⟨i, _, _, _, w, _, hw⟩ := lookup_of_mem r key hlen hmem
      exact ⟨_, hw⟩
    · exact ⟨_, (lookup_of_not_mem r key hmem).2⟩

/-- C12 at a sample input: after Add("b", 2) on the Result that holds
("a", 1), the lengths are equal again and Value returns for the key "b". -/
theorem Add_keeps_lengths_equal_witness :
    ((Result.addAll [("a", Any.int64 1)]).Add "b" (Any.int64 2)).Keys.length =
      ((Result.addAll [("a", Any.int64 1)]).Add "b" (Any.int64 2)).Values.length ∧
    ∃ res, ((Result.addAll [("a", Any.int64 1)]).Add "b" (Any.int64 2)).Value "b" = some res :=
  ⟨(Add_keeps_lengths_equal.2 (Result.addAll [("a", Any.int64 1)]) "b" (Any.int64 2)).2.2.1 rfl,
   (Add_keeps_lengths_equal.2 ((Result.addAll [("a", Any.int64 1)]).Add "b" (Any.int64 2))
     "b" (Any.int64 2)).2.2.2.2.2.2.2 rfl "b"⟩

/-- Without the equality of the lengths the indexing in Value can go out of
range: a Result with one key and no value. -/
theorem Value_panics_without_value :
    ({ Values := [], Keys := ["a"] } : Result).Value "a" = none := by
  rfl

/-! ## graph/conn.go: NewConn, IsConnected, Close -/

/-- The call of UseDB that NewConn makes on the connection it has just
built: no transaction is open, so the probe is issued. -/
theorem NewConn_eq (newDriver : String → neo4j.AuthToken → Except neo4j.Error neo4j.Driver)
    (p : Process) (addr user : String) (auth : neo4j.AuthToken) (dbName : String) :
    NewConn newDriver p addr user auth dbName =
      match newDriver addr auth with
      | .error err => some (p, none, some err)
      | .ok d =>
        match (newConnLiteral d user auth dbName).UseDB dbName with
        | none => none
        | some (conn1, none) =>
          some ({ conns := p.conns ++ [conn1], defConn := some p.conns.length },
            some p.conns.length, none)
        | some (conn1, some e) =>
          some ({ conns := p.conns ++ [conn1], defConn := none }, some p.conns.length, some e) := by
  unfold NewConn
  cases newDriver addr auth with
  | error err => rfl
  | ok d =>
    simp only
    cases (newConnLiteral d user auth dbName).UseDB dbName with
    | none => rfl
    | some r =>
      obtain ⟨conn1, err⟩ := r
      cases err <;> rfl

/-- UseDB on a connection with a driver handle and no transaction returns:
it does not panic. -/
theorem UseDB_returns (c : Conn) (d : neo4j.Driver) (dbName : String)
    (hd : c.Driver = some d) (htx : c.Tx = none) :
    ∃ c1 err, c.UseDB dbName = some (c1, err) ∧
      (err = none → c1.DBName = dbName) := by
  have hrb : c.Rollback.2.2 = none := by simp [Conn.Rollback, htx]
  rw [UseDB_after_rollback c d dbName hd hrb]
  cases hprobe : d.readAnswer dbName "CALL db.ping()" with
  | none => exact ⟨_, _, rfl, fun _ => rfl⟩
  | some e =>
    cases e with
    | other msg => exact ⟨_, _, rfl, fun h => by simp at h⟩
    | neo4j title msg =>
      by_cases hc : title = "CredentialsExpired" ∧ dbName = SystemDB
      · simp only [hc, and_self, if_true]
        exact ⟨_, _, rfl, fun _ => rfl⟩
      · simp only [hc, if_false]
        exact ⟨_, _, rfl, fun h => by simp at h⟩

/-- C13 (counterexample): in a process whose default connection is
connected, a call of NewConn for which no driver can be created returns an
error, yet the default connection is registered as before and IsConnected
returns true. -/
theorem NewConn_driver_error_keeps_default :
    IsConnected sampleProcess = true ∧
    (NewConn noDriver sampleProcess "bolt://nowhere" "neo4j" { Tokens := [] } "neo4j").map
        (fun r => (r.1.defConn, IsConnected r.1, r.2.1, r.2.2)) =
      some (some 0, true, none, some (neo4j.Error.other "invalid address")) := by
  decide

/-- C13 (amended): a call of NewConn for which no driver can be created
returns that error and no connection and leaves the process as it was; a
call for which a driver is created returns a newly allocated connection,
leaves the connections allocated before as they were, and afterwards the
default connection is this new connection when no error is returned, and
there is no default connection, so that IsConnected is false, when an error
is returned. -/
theorem NewConn_registers_default
    (newDriver : String → neo4j.AuthToken → Except neo4j.Error neo4j.Driver)
    (p : Process) (addr user : String) (auth : neo4j.AuthToken) (dbName : String) :
    (∀ err, newDriver addr auth = .error err →
      NewConn newDriver p addr user auth dbName = some (p, none, some err)) ∧
    (∀ d, newDriver addr auth = .ok d →
      ∃ p1 conn1 err, NewConn newDriver p addr user auth dbName =
          some (p1, some p.conns.length, err) ∧
        p1.conns = p.conns ++ [conn1] ∧
        (err = none → p1.defConn = some p.conns.length) ∧
        (err ≠ none → p1.defConn = none ∧ IsConnected p1 = false)) := by
  rw [NewConn_eq]
  constructor
  · intro err h
    rw [h]
  · intro d h
    rw [h]
    obtain ⟨c1, err, hu, _⟩ := UseDB_returns (newConnLiteral d user auth dbName) d dbName
      rfl rfl
    simp only [hu]
    cases err with
    | none => exact ⟨_, c1, none, rfl, rfl, fun _ => rfl, fun h => absurd rfl h⟩
    | some e =>
      exact ⟨_, c1, some e, rfl, rfl, fun h => by simp at h, fun _ => ⟨rfl, rfl⟩⟩

/-- C13 (amended) at sample inputs: on `sampleProcess`, opening "orders"
fails at the probe and leaves no default connection; opening "neo4j"
succeeds and makes the new connection, at position 1, the default. -/
theorem NewConn_registers_default_witness :
    (∃ p1 conn1 err, NewConn someDriver sampleProcess "bolt://db" "neo4j" { Tokens := [] }
          "orders" = some (p1, some 1, err) ∧
        p1.conns = sampleProcess.conns ++ [conn1] ∧
        (err = none → p1.defConn = some 1) ∧
        (err ≠ none → p1.defConn = none ∧ IsConnected p1 = false)) ∧
    (NewConn someDriver sampleProcess "bolt://db" "neo4j" { Tokens := [] } "orders").map
        (fun r => (r.1.defConn, r.2.2)) =
      some (none, some (neo4j.Error.neo4j "DatabaseNotFound" "database does not exist")) ∧
    (NewConn someDriver sampleProcess "bolt://db" "neo4j" { Tokens := [] } "neo4j").map
        (fun r => (r.1.defConn, r.2.2)) = some (some 1, none) :=
  ⟨(NewConn_registers_default someDriver sampleProcess "bolt://db" "neo4j" { Tokens := [] }
      "orders").2 sampleDriver rfl, by decide, by decide⟩

/-- C19 (the code at the failing input): NewConn with the empty database
name, on a driver whose probe of that database succeeds, returns no error
and registers the new connection as the default, and IsConnected returns
false. -/
theorem IsConnected_false_after_NewConn_empty_name :
    sampleDriver.readAnswer "" "CALL db.ping()" = none ∧
    (NewConn someDriver { conns := [], defConn := none } "bolt://db" "neo4j" { Tokens := [] }
        "").map (fun r => (r.1.defConn, r.2.1, r.2.2, IsConnected r.1)) =
      some (some 0, some 0, none, false) := by
  decide

/-- After a call of NewConn that returns no error, IsConnected is true
exactly when the database name passed is not empty. -/
theorem IsConnected_after_NewConn
    (newDriver : String → neo4j.AuthToken → Except neo4j.Error neo4j.Driver)
    (p p1 : Process) (addr user : String) (auth : neo4j.AuthToken) (dbName : String)
    (a : Option Nat)
    (h : NewConn newDriver p addr user auth dbName = some (p1, a, none)) :
    IsConnected p1 = decide (dbName ≠ "") := by
  rw [NewConn_eq] at h
  cases hnd : newDriver addr auth with
  | error err => simp [hnd] at h
  | ok d =>
    simp only [hnd] at h
    obtain ⟨c1, err, hu, hname⟩ := UseDB_returns (newConnLiteral d user auth dbName) d dbName
      rfl rfl
    simp only [hu] at h
    cases err with
    | some e => simp at h
    | none =>
      simp only [Option.some.injEq, Prod.mk.injEq, and_true] at h
      rw [← h.1]
      simp [IsConnected, hname rfl]

/-- C14: on a connection whose current database is the system database,
FetchMetadata returns the empty Metadata and no error and leaves the
connection, and with it the history of its driver, as it was: no session is
opened and no statement run, whatever the driver would answer. -/
theorem FetchMetadata_system_database (c : Conn) (h : c.DBName = SystemDB) :
    FetchMetadata c = some (c, Metadata.zero, none) ∧
    (FetchMetadata c).map (fun r => issuedOn r.1) = some (issuedOn c) := by
  simp [FetchMetadata, h]

/-- C14 at a sample input: a connection to "system" whose driver answers
every statement with an error. -/
theorem FetchMetadata_system_database_witness :
    FetchMetadata systemConn = some (systemConn, Metadata.zero, none) ∧
    (FetchMetadata systemConn).map (fun r => issuedOn r.1) = some (issuedOn systemConn) :=
  FetchMetadata_system_database systemConn rfl

/-- C15: on a connection with an open transaction whose rollback fails,
UseDB returns the error of the rollback and a connection that differs only
in having no cached transaction: the database name is the old one and the
history of the driver is unchanged, so no session was opened and no probe
issued. -/
theorem UseDB_rollback_error (c : Conn) (tx : neo4j.Transaction) (e : neo4j.Error)
    (dbName : String) (htx : c.Tx = some tx) (hrb : tx.Rollback = some e) :
    c.UseDB dbName = some ({ c with Tx := none }, some e) ∧
    (c.UseDB dbName).map (fun r => (r.1.DBName, issuedOn r.1)) =
      some (c.DBName, issuedOn c) := by
  simp [Conn.UseDB, Conn.Rollback, htx, hrb, issuedOn]

/-- C15 at a sample input: a connection to "neo4j" with a transaction whose
rollback fails stays on "neo4j" when asked to use "orders". -/
theorem UseDB_rollback_error_witness :
    ({ sampleConn with Tx := some failingTx } : Conn).UseDB "orders" =
      some ({ sampleConn with Tx := none }, some (neo4j.Error.other "rollback failed")) ∧
    (({ sampleConn with Tx := some failingTx } : Conn).UseDB "orders").map
        (fun r => (r.1.DBName, issuedOn r.1)) = some ("neo4j", []) :=
  UseDB_rollback_error ({ sampleConn with Tx := some failingTx } : Conn) failingTx
    (neo4j.Error.other "rollback failed") "orders" rfl rfl

/-- C16: Close on a connection without driver handle returns no error and
the connection as it was; when the Close of the driver fails, it returns
that error and the connection as it was; when it succeeds, it returns no
error and the connection with no driver handle, no cached transaction, an
empty parameter cache and the empty database name, on which a second Close
changes nothing. -/
theorem Close_releases_driver (c : Conn) :
    (c.Driver = none → c.Close = (c, none)) ∧
    (∀ d e, c.Driver = some d → d.Close = some e → c.Close = (c, some e)) ∧
    (∀ d, c.Driver = some d → d.Close = none →
      c.Close = ({ c with Driver := none, Tx := none, Params := [], DBName := "" }, none) ∧
      c.Close.1.Close = (c.Close.1, none)) := by
  refine ⟨?_, ?_, ?_⟩
  · intro h
    simp [Conn.Close, h]
  · intro d e hd he
    simp [Conn.Close, hd, he]
  · intro d hd he
    simp [Conn.Close, hd, he]

/-- C16 at sample inputs: a closed connection, a connection whose driver
fails to close, and an open connection with a transaction. -/
theorem Close_releases_driver_witness :
    closedConn.Close = (closedConn, none) ∧
    ({ sampleConnTx with Driver := some stuckDriver } : Conn).Close =
      ({ sampleConnTx with Driver := some stuckDriver },
        some (neo4j.Error.other "close failed")) ∧
    sampleConnTx.Close =
      ({ sampleConnTx with Driver := none, Tx := none, Params := [], DBName := "" }, none) ∧
    sampleConnTx.Close.1.Close = (sampleConnTx.Close.1, none) :=
  ⟨(Close_releases_driver closedConn).1 rfl,
   (Close_releases_driver ({ sampleConnTx with Driver := some stuckDriver } : Conn)).2.1
     stuckDriver (neo4j.Error.other "close failed") rfl rfl,
   (Close_releases_driver sampleConnTx).2.2 sampleDriver rfl rfl⟩

/-! ## plan/plan.go -/

/-- C17: for every ordinal from 0 to 4, String returns, without panic, the
label at that ordinal in the order UNKNOWN, READ_ONLY, READ_WRITE,
WRITE_ONLY, SCHEMA_WRITE, which is not the decimal numeral of the ordinal;
different ordinals have different labels; MarshalJSON returns the bytes of
the label between two double quotes and MarshalYAML returns the label, both
without error. -/
theorem StmtType_label (s : StmtType) (h0 : 0 ≤ s.val) (h4 : s.val ≤ 4) :
    ∃ label,
      ["UNKNOWN", "READ_ONLY", "READ_WRITE", "WRITE_ONLY", "SCHEMA_WRITE"][s.val.toNat]? =
        some label ∧
      s.String = some label ∧
      label ≠ fmtInt s.val ∧
      (∀ t : StmtType, 0 ≤ t.val → t.val ≤ 4 → t.String = some label → t = s) ∧
      s.MarshalJSON = some (stringBytes (doubleQuote ++ label ++ doubleQuote), none) ∧
      s.MarshalYAML = some (Any.str label, none) := by
  obtain ⟨v⟩ := s
  simp only at h0 h4
  have hdistinct : ∀ a < 5, ∀ b < 5,
      (StmtType.mk (Int.ofNat a)).String = (StmtType.mk (Int.ofNat b)).String → a = b := by
    decide
  have hcases : v = 0 ∨ v = 1 ∨ v = 2 ∨ v = 3 ∨ v = 4 := by omega
  have hinj : ∀ label, (StmtType.mk v).String = some label →
      ∀ t : StmtType, 0 ≤ t.val → t.val ≤ 4 → t.String = some label → t = StmtType.mk v := by
    intro label hl t ht0 ht4 htl
    obtain ⟨w⟩ := t
    simp only at ht0 ht4
    have e1 : w = (w.toNat : Int) := by omega
    have e2 : v = (v.toNat : Int) := by omega
    have := hdistinct w.toNat (by omega) v.toNat (by omega)
      (by rw [Int.ofNat_eq_coe, Int.ofNat_eq_coe, ← e1, ← e2, htl, hl])
    congr 1
    omega
  rcases hcases with e | e | e | e | e <;> subst e
  · exact ⟨"UNKNOWN", by decide, by decide, by decide, hinj _ (by decide), by decide, rfl⟩
  · exact ⟨"READ_ONLY", by decide, by decide, by decide, hinj _ (by decide), by decide, rfl⟩
  · exact ⟨"READ_WRITE", by decide, by decide, by decide, hinj _ (by decide), by decide, rfl⟩
  · exact ⟨"WRITE_ONLY", by decide, by decide, by decide, hinj _ (by decide), by decide, rfl⟩
  · exact ⟨"SCHEMA_WRITE", by decide, by decide, by decide, hinj _ (by decide), by decide, rfl⟩

/-- C17 at the ordinal 2 of the specification. -/
theorem StmtType_label_witness :
    ∃ label,
      ["UNKNOWN", "READ_ONLY", "READ_WRITE", "WRITE_ONLY", "SCHEMA_WRITE"][2]? = some label ∧
      (StmtType.mk 2).String = some label ∧
      label ≠ fmtInt 2 ∧
      (∀ t : StmtType, 0 ≤ t.val → t.val ≤ 4 → t.String = some label → t = StmtType.mk 2) ∧
      (StmtType.mk 2).MarshalJSON =
        some (stringBytes (doubleQuote ++ label ++ doubleQuote), none) ∧
      (StmtType.mk 2).MarshalYAML = some (Any.str label, none) :=
  StmtType_label (StmtType.mk 2) (by decide) (by decide)

/-- The values of the specification: ordinal 2 is "READ_WRITE", and its JSON
form is that label between the bytes 34 of the double quote. -/
theorem StmtType_two :
    (StmtType.mk 2).String = some "READ_WRITE" ∧
    (StmtType.mk 2).MarshalJSON =
      some ([34, 82, 69, 65, 68, 95, 87, 82, 73, 84, 69, 34], none) := by
  decide

/-- String panics on the ordinals outside 0 to 4. -/
theorem StmtType_out_of_range (s : StmtType) (h : s.val < 0 ∨ 4 < s.val) :
    s.String = none := by
  obtain ⟨v⟩ := s
  simp only at h
  unfold StmtType.String
  rcases h with h | h
  · simp [h]
  · have hn : ¬ v < 0 := by omega
    have hl : 5 ≤ v.toNat := by omega
    simp only [hn, if_false]
    exact List.getElem?_eq_none (by simpa using hl)

/-- The choice between singular and plural: the singular exactly for 1. -/
theorem plural_eq (n : Int) (singular other : String) (hne : singular ≠ other) :
    (plural n singular other = singular ↔ n = 1) ∧
    (plural n singular other = other ↔ n ≠ 1) := by
  unfold plural
  by_cases h : n = 1
  · simp [h, hne]
  · simp [h, Ne.symm hne]

/-- C18: String of an Op is the operator, then in parentheses the rows, a
row word, the DB hits and a hit word, where the row word is "row" exactly
when Rows is 1 and "rows" for every other value, and the hit word is "hit"
exactly when DBHits is 1 and "hits" for every other value. -/
theorem Op_String_plural (p : Op) :
    ∃ rowWord hitWord,
      p.String = p.Operator ++ " (" ++ fmtInt p.Rows ++ " " ++ rowWord ++ ", " ++
        fmtInt p.DBHits ++ " DB " ++ hitWord ++ ")" ∧
      (rowWord = "row" ↔ p.Rows = 1) ∧ (rowWord = "rows" ↔ p.Rows ≠ 1) ∧
      (hitWord = "hit" ↔ p.DBHits = 1) ∧ (hitWord = "hits" ↔ p.DBHits ≠ 1) :=
  ⟨plural p.Rows "row" "rows", plural p.DBHits "hit" "hits", rfl,
    (plural_eq p.Rows "row" "rows" (by decide)).1,
    (plural_eq p.Rows "row" "rows" (by decide)).2,
    (plural_eq p.DBHits "hit" "hits" (by decide)).1,
    (plural_eq p.DBHits "hit" "hits" (by decide)).2⟩

/-- The renderings of the specification: one row and one hit, no row and
two hits, and a negative number of rows. -/
theorem Op_String_samples :
    (Op.mk "NodeByLabelScan" "" 10 1 1 0 0 0 "" []).String =
      "NodeByLabelScan (1 row, 1 DB hit)" ∧
    (Op.mk "Filter" "" 10 0 2 0 0 0 "" []).String = "Filter (0 rows, 2 DB hits)" ∧
    (Op.mk "Expand" "" 10 (-1) 0 0 0 0 "" []).String = "Expand (-1 rows, 0 DB hits)" := by
  decide

/-! ## Sorting does not depend on the order of its input -/

/-- Two lists that hold the same elements up to `f`, pairwise comparable by
`less`, are sorted by slices.SortFunc into the same list up to `f`, when `f`
does not change how elements compare. -/
theorem sortFunc_map_eq_of_perm {α : Type} (less : α → α → Bool)
    (hasymm : ∀ a b, less a b = true → less b a = false)
    (hneg : ∀ a b c, less b a = false → less c b = false → less c a = false)
    (f : α → α) (hf : ∀ a b, less (f a) (f b) = less a b) (l1 l2 : List α)
    (hp : (l1.map f).Perm (l2.map f))
    (hdist : l1.Pairwise (fun a b => less a b = true ∨ less b a = true)) :
    (sortFunc less l1).map f = (sortFunc less l2).map f := by
  have hsymm : ∀ {x y : α}, (less x y = true ∨ less y x = true) →
      (less y x = true ∨ less x y = true) := fun h => h.symm
  have hd1 : (l1.map f).Pairwise (fun a b => less a b = true ∨ less b a = true) :=
    List.Pairwise.map f (fun a b h => by rw [hf a b, hf b a]; exact h) hdist
  have hd2 : (l2.map f).Pairwise (fun a b => less a b = true ∨ less b a = true) :=
    (hp.pairwise_iff hsymm).1 hd1
  have hstrict : ∀ l : List α,
      (l.map f).Pairwise (fun a b => less a b = true ∨ less b a = true) →
      ((sortFunc less l).map f).Pairwise (fun a b => less a b = true) := by
    intro l hd
    have hs : ((sortFunc less l).map f).Pairwise (fun a b => less b a = false) :=
      List.Pairwise.map f (fun a b h => by rw [hf b a]; exact h)
        (sortFunc_sorted less hasymm hneg l)
    have hd3 : ((sortFunc less l).map f).Pairwise
        (fun a b => less a b = true ∨ less b a = true) :=
      ((((sortFunc_perm less l).map f)).pairwise_iff hsymm).2 hd
    refine (hs.and hd3).imp ?_
    intro a b hab
    rcases hab.2 with h | h
    · exact h
    · rw [hab.1] at h
      exact absurd h (by decide)
  haveI : IsAntisymm α (fun a b => less a b = true) :=
    ⟨fun a b hab hba => by
      rw [hasymm a b hab] at hba
      exact absurd hba (by decide)⟩
  have hperm : ((sortFunc less l1).map f).Perm ((sortFunc less l2).map f) :=
    (((sortFunc_perm less l1).map f).trans hp).trans ((sortFunc_perm less l2).map f).symm
  exact List.eq_of_perm_of_sorted hperm (hstrict l1 hd1) (hstrict l2 hd2)

/-- Every ascending list that holds the elements of `x` is the result of
slices.SortFunc on `x`, when the elements of `x` are pairwise comparable:
the result does not depend on the sorting algorithm. -/
theorem sortFunc_unique {α : Type} (less : α → α → Bool)
    (hasymm : ∀ a b, less a b = true → less b a = false)
    (hneg : ∀ a b c, less b a = false → less c b = false → less c a = false)
    (x l : List α) (hp : l.Perm x) (hs : l.Pairwise (fun a b => less b a = false))
    (hdist : x.Pairwise (fun a b => less a b = true ∨ less b a = true)) :
    l = sortFunc less x := by
  have hsymm : ∀ {a b : α}, (less a b = true ∨ less b a = true) →
      (less b a = true ∨ less a b = true) := fun h => h.symm
  have hstrict : ∀ y : List α, y.Perm x → y.Pairwise (fun a b => less b a = false) →
      y.Pairwise (fun a b => less a b = true) := by
    intro y hy hys
    refine (hys.and ((hy.pairwise_iff hsymm).2 hdist)).imp ?_
    intro a b hab
    rcases hab.2 with h | h
    · exact h
    · rw [hab.1] at h
      exact absurd h (by decide)
  haveI : IsAntisymm α (fun a b => less a b = true) :=
    ⟨fun a b hab hba => by
      rw [hasymm a b hab] at hba
      exact absurd hba (by decide)⟩
  exact List.eq_of_perm_of_sorted (hp.trans (sortFunc_perm less x).symm) (hstrict l hp hs)
    (hstrict _ (sortFunc_perm less x) (sortFunc_sorted less hasymm hneg x))

/-- The form of `mapCanon` is the same for every order in which a map with
pairwise different keys is listed. -/
theorem mapCanon_eq_of_perm {α : Type} (l1 l2 : List (String × α)) (hp : l1.Perm l2)
    (hnd : (l1.map Prod.fst).Nodup) : mapCanon l1 = mapCanon l2 := by
  have h := sortFunc_map_eq_of_perm (fun a b : String × α => strLess a.1 b.1)
    (fun a b => strLess_asymm a.1 b.1) (fun a b c => strLess_negtrans a.1 b.1 c.1)
    id (fun _ _ => rfl) l1 l2 (by simpa using hp)
    (by
      have hpw : l1.Pairwise (fun a b => a.1 ≠ b.1) := by
        rw [List.Nodup, List.pairwise_map] at hnd
        exact hnd
      refine hpw.imp ?_
      intro a b hab
      cases h1 : strLess a.1 b.1 with
      | true => exact Or.inl h1
      | false =>
        cases h2 : strLess b.1 a.1 with
        | true => exact Or.inr h2
        | false => exact absurd (strLess_connex a.1 b.1 h1 h2) hab)
  simpa [mapCanon] using h

/-- The result of sort.Strings is the same for every order in which strings
that are pairwise different are listed. -/
theorem sortStrings_eq_of_perm (l1 l2 : List String) (hp : l1.Perm l2) (hnd : l1.Nodup) :
    sortStrings l1 = sortStrings l2 := by
  have h := sortFunc_map_eq_of_perm strLess strLess_asymm strLess_negtrans
    id (fun _ _ => rfl) l1 l2 (by simpa using hp)
    (by
      refine (List.Nodup.pairwise_of_forall_ne hnd ?_)
      intro a _ b _ hab
      cases h1 : strLess a b with
      | true => exact Or.inl rfl
      | false =>
        cases h2 : strLess b a with
        | true => exact Or.inr rfl
        | false => exact absurd (strLess_connex a b h1 h2) hab)
  simpa [sortStrings] using h

/-! ## meta/meta.go: apocMetaSchema under another order of iteration -/

/-- Two entries that are the same up to the order of their properties are of
the same kind, have the same count and the same properties up to order, and
the decoder accepts both or none. -/
theorem sameEntry_fields (v1 v2 : Any) (h : SameEntry v1 v2) :
    entryIsNode v1 = entryIsNode v2 ∧ entryCount v1 = entryCount v2 ∧
    (entryProperties v1).Perm (entryProperties v2) ∧
    entryDecodes v1 = entryDecodes v2 := by
  obtain ⟨kv1, kv2, ps1, ps2, e1, e2, ht, hc, hp1, hp2, hperm⟩ := h
  subst e1 e2
  have hnode : entryIsNode (Any.map kv1) = entryIsNode (Any.map kv2) := by
    simp [entryIsNode, entryField, Any.asMap, ht]
  have hprops1 : entryProperties (Any.map kv1) = ps1 := by
    simp [entryProperties, entryField, Any.asMap, hp1]
  have hprops2 : entryProperties (Any.map kv2) = ps2 := by
    simp [entryProperties, entryField, Any.asMap, hp2]
  refine ⟨hnode, ?_, ?_, ?_⟩
  · simp [entryCount, entryField, Any.asMap, hc]
  · rw [hprops1, hprops2]
    exact hperm
  · have hall : ∀ f : String × Any → Bool, ps1.all f = ps2.all f := by
      intro f
      rw [Bool.eq_iff_iff, List.all_eq_true, List.all_eq_true]
      exact ⟨fun h x hx => h x (hperm.mem_iff.2 hx), fun h x hx => h x (hperm.mem_iff.1 hx)⟩
    unfold entryDecodes
    rw [hprops1, hprops2, hnode, hall]
    simp [entryField, Any.asMap, hc, hp1, hp2]

/-- The Node of an entry does not depend, up to the form of its maps, on the
order of the properties. -/
theorem specNode_canon_eq (k : String) (v1 v2 : Any) (h : SameEntry v1 v2)
    (hnd : ((entryProperties v1).map Prod.fst).Nodup) :
    (specNode k v1).canon = (specNode k v2).canon := by
  obtain ⟨_, hc, hp, _⟩ := sameEntry_fields v1 v2 h
  have hm := mapCanon_eq_of_perm
    ((entryProperties v1).map (fun p => (p.1, specNodeProperty p.2)))
    ((entryProperties v2).map (fun p => (p.1, specNodeProperty p.2)))
    (hp.map _) (by simpa [List.map_map, Function.comp_def] using hnd)
  simp [Node.canon, specNode, hc, hm]

/-- The Relationship of an entry does not depend, up to the form of its map,
on the order of the properties. -/
theorem specRel_canon_eq (k : String) (v1 v2 : Any) (h : SameEntry v1 v2)
    (hnd : ((entryProperties v1).map Prod.fst).Nodup) :
    (specRel k v1).canon = (specRel k v2).canon := by
  obtain ⟨_, hc, hp, _⟩ := sameEntry_fields v1 v2 h
  have hm := mapCanon_eq_of_perm
    ((entryProperties v1).map (fun p => (p.1, specRelProperty p.2)))
    ((entryProperties v2).map (fun p => (p.1, specRelProperty p.2)))
    (hp.map _) (by simpa [List.map_map, Function.comp_def] using hnd)
  simp [Relationship.canon, specRel, hc, hm]

/-- The Nodes of a payload in the form of `mapCanon`, entry by entry. -/
theorem specNodes_map_canon (p : List (String × Any)) :
    (specNodes p).map Node.canon = p.filterMap canonNodeOf := by
  induction p with
  | nil => rfl
  | cons e rest ih =>
    have hrest : (specNodes rest).map Node.canon = rest.filterMap canonNodeOf := ih
    by_cases hk : entryIsNode e.2 = true
    · simp only [specNodes, List.filter_cons, hk, if_true, List.map_cons, List.filterMap_cons,
        canonNodeOf]
      rw [← hrest]
      rfl
    · simp only [specNodes, List.filter_cons, hk, if_false, List.filterMap_cons,
        canonNodeOf]
      rw [← hrest]
      rfl

/-- The Relationships of a payload in the form of `mapCanon`, entry by
entry. -/
theorem specRels_map_canon (p : List (String × Any)) :
    (specRels p).map Relationship.canon = p.filterMap canonRelOf := by
  induction p with
  | nil => rfl
  | cons e rest ih =>
    have hrest : (specRels rest).map Relationship.canon = rest.filterMap canonRelOf := ih
    by_cases hk : entryIsNode e.2 = true
    · simp only [specRels, List.filter_cons, hk, Bool.not_true, Bool.false_eq_true, if_false,
        List.filterMap_cons, canonRelOf, if_true]
      rw [← hrest]
      rfl
    · have hk2 : entryIsNode e.2 = false := by simpa using hk
      simp only [specRels, List.filter_cons, hk2, Bool.not_false, if_true, List.map_cons,
        List.filterMap_cons, canonRelOf, Bool.false_eq_true, if_false]
      rw [← hrest]
      rfl

/-- Two payloads that agree entry by entry up to the order of the properties
give the same Nodes and Relationships up to the form of the maps, are both
accepted by the decoder or both not, name the same properties, and the
second names no property twice in an entry if the first does not. -/
theorem forall2_sameEntry (q p2 : List (String × Any))
    (hf : List.Forall₂ (fun a b => a.1 = b.1 ∧ SameEntry a.2 b.2) q p2)
    (hnd : ∀ e ∈ q, keysNodup (entryProperties e.2) = true) :
    q.filterMap canonNodeOf = p2.filterMap canonNodeOf ∧
    q.filterMap canonRelOf = p2.filterMap canonRelOf ∧
    q.all (fun e => entryDecodes e.2) = p2.all (fun e => entryDecodes e.2) ∧
    (∀ e ∈ p2, keysNodup (entryProperties e.2) = true) ∧
    (∀ n, (∃ e ∈ q, n ∈ (entryProperties e.2).map Prod.fst) ↔
      ∃ e ∈ p2, n ∈ (entryProperties e.2).map Prod.fst) := by
  induction hf with
  | nil => simp
  | @cons a b q p2 hab _ ih =>
    obtain ⟨ih1, ih2, ih3, ih4, ih5⟩ := ih (fun e he => hnd e (by simp [he]))
    obtain ⟨hkey, hsame⟩ := hab
    obtain ⟨hnode, _, hperm, hdec⟩ := sameEntry_fields a.2 b.2 hsame
    have hnda : ((entryProperties a.2).map Prod.fst).Nodup := by
      have := hnd a (by simp)
      simpa [keysNodup] using this
    have hndb : ((entryProperties b.2).map Prod.fst).Nodup :=
      ((hperm.map Prod.fst).nodup_iff).1 hnda
    have hcn : canonNodeOf a = canonNodeOf b := by
      simp only [canonNodeOf, hnode, hkey, specNode_canon_eq b.1 a.2 b.2 hsame hnda]
    have hcr : canonRelOf a = canonRelOf b := by
      simp only [canonRelOf, hnode, hkey, specRel_canon_eq b.1 a.2 b.2 hsame hnda]
    refine ⟨?_, ?_, ?_, ?_, ?_⟩
    · simp only [List.filterMap_cons, hcn, ih1]
    · simp only [List.filterMap_cons, hcr, ih2]
    · simp only [List.all_cons, hdec, ih3]
    · intro e he
      rcases List.mem_cons.1 he with h | h
      · subst h
        simpa [keysNodup] using hndb
      · exact ih4 e h
    · intro n
      have hmem : n ∈ (entryProperties a.2).map Prod.fst ↔
          n ∈ (entryProperties b.2).map Prod.fst := (hperm.map Prod.fst).mem_iff
      constructor
      · rintro ⟨e, he, hn⟩
        rcases List.mem_cons.1 he with h | h
        · subst h
          exact ⟨b, by simp, hmem.1 hn⟩
        · obtain ⟨x, hx, hxn⟩ := (ih5 n).1 ⟨e, h, hn⟩
          exact ⟨x, by simp [hx], hxn⟩
      · rintro ⟨e, he, hn⟩
        rcases List.mem_cons.1 he with h | h
        · subst h
          exact ⟨a, by simp, hmem.2 hn⟩
        · obtain ⟨x, hx, hxn⟩ := (ih5 n).2 ⟨e, h, hn⟩
          exact ⟨x, by simp [hx], hxn⟩

/-- Two payloads that are the same up to the orders of iteration give the
same Nodes and Relationships up to order and up to the form of the maps, are
both accepted by the decoder or both not, and name the same properties. -/
theorem samePayload_facts (p1 p2 : List (String × Any)) (h : SamePayload p1 p2)
    (hnd : ∀ e ∈ p1, keysNodup (entryProperties e.2) = true) :
    (p1.filterMap canonNodeOf).Perm (p2.filterMap canonNodeOf) ∧
    (p1.filterMap canonRelOf).Perm (p2.filterMap canonRelOf) ∧
    p1.all (fun e => entryDecodes e.2) = p2.all (fun e => entryDecodes e.2) ∧
    (∀ e ∈ p2, keysNodup (entryProperties e.2) = true) ∧
    (∀ n, (∃ e ∈ p1, n ∈ (entryProperties e.2).map Prod.fst) ↔
      ∃ e ∈ p2, n ∈ (entryProperties e.2).map Prod.fst) := by
  obtain ⟨q, hperm, hf⟩ := h
  obtain ⟨h1, h2, h3, h4, h5⟩ := forall2_sameEntry q p2 hf
    (fun e he => hnd e (hperm.mem_iff.2 he))
  refine ⟨?_, ?_, ?_, h4, ?_⟩
  · rw [← h1]
    exact hperm.filterMap _
  · rw [← h2]
    exact hperm.filterMap _
  · rw [← h3, Bool.eq_iff_iff, List.all_eq_true, List.all_eq_true]
    exact ⟨fun h x hx => h x (hperm.mem_iff.2 hx), fun h x hx => h x (hperm.mem_iff.1 hx)⟩
  · intro n
    rw [← h5 n]
    constructor
    · rintro ⟨e, he, hn⟩
      exact ⟨e, hperm.mem_iff.1 he, hn⟩
    · rintro ⟨e, he, hn⟩
      exact ⟨e, hperm.mem_iff.2 he, hn⟩

/-- The Nodes and the Relationships of a payload with pairwise different
keys are pairwise comparable by the comparisons that sort them. -/
theorem spec_comparable (p : List (String × Any)) (hkeys : (p.map Prod.fst).Nodup) :
    (specNodes p).Pairwise (fun a b => nodeLess a b = true ∨ nodeLess b a = true) ∧
    (specRels p).Pairwise (fun a b => relLess a b = true ∨ relLess b a = true) := by
  have hpw : p.Pairwise (fun a b => a.1 ≠ b.1) := by
    rw [List.Nodup, List.pairwise_map] at hkeys
    exact hkeys
  have hcmp : ∀ a b : String, a ≠ b → strLess a b = true ∨ strLess b a = true := by
    intro a b hab
    cases h1 : strLess a b with
    | true => exact Or.inl rfl
    | false =>
      cases h2 : strLess b a with
      | true => exact Or.inr rfl
      | false => exact absurd (strLess_connex a b h1 h2) hab
  constructor
  · unfold specNodes
    rw [List.pairwise_map]
    refine (hpw.sublist (List.filter_sublist _)).imp ?_
    intro a b hab
    rcases hcmp a.1 b.1 hab with h | h
    · left
      simp [nodeLess, specNode, slicesCompare, h]
    · right
      simp [nodeLess, specNode, slicesCompare, h]
  · unfold specRels
    rw [List.pairwise_map]
    refine (hpw.sublist (List.filter_sublist _)).imp ?_
    intro a b hab
    rcases hcmp a.1 b.1 hab with h | h
    · left
      simp [relLess, specRel, h]
    · right
      simp [relLess, specRel, h]

/-- C20: let two calls of apocMetaSchema, made as FetchMetadata makes them,
receive payloads that are the same Go map visited in two orders of
iteration, of the entries and of the properties of every entry.  If the
first call returns without error, so does the second, and the two Metadata
have the same Props, the same Nodes and the same Rels in the same order,
maps being compared by their entries; and Props is what sort.Strings yields
for every order in which the collected names are appended. -/
theorem apocMetaSchema_deterministic (c1 c2 : Conn) (d1 d2 : neo4j.Driver)
    (rec1 rec2 : neo4j.Record) (payload1 payload2 : List (String × Any))
    (funcs procs : List Func)
    (hd1 : c1.Driver = some d1)
    (hrun1 : d1.runAnswer c1.DBName "CALL apoc.meta.schema" = .ok [rec1])
    (hrec1 : rec1.Values[0]? = some (Any.map payload1))
    (hd2 : c2.Driver = some d2)
    (hrun2 : d2.runAnswer c2.DBName "CALL apoc.meta.schema" = .ok [rec2])
    (hrec2 : rec2.Values[0]? = some (Any.map payload2))
    (hkeys : (payload1.map Prod.fst).Nodup)
    (hprops : ∀ e ∈ payload1, keysNodup (entryProperties e.2) = true)
    (hsame : SamePayload payload1 payload2)
    (r1 : Conn) (m1 : Metadata)
    (hfirst : apocMetaSchema c1 { Metadata.zero with Funcs := funcs, Procs := procs } =
      some (r1, m1, none)) :
    ∃ r2 m2, apocMetaSchema c2 { Metadata.zero with Funcs := funcs, Procs := procs } =
        some (r2, m2, none) ∧
      m2.Props = m1.Props ∧
      m2.Nodes.map Node.canon = m1.Nodes.map Node.canon ∧
      m2.Rels.map Relationship.canon = m1.Rels.map Relationship.canon ∧
      m2.Funcs = m1.Funcs ∧ m2.Procs = m1.Procs ∧
      (∀ ks : List String, ks.Perm m1.Props → sortStrings ks = m1.Props) := by
  obtain ⟨hn, hr, hall, hprops2, hnames⟩ := samePayload_facts payload1 payload2 hsame hprops
  obtain ⟨hcn, hcr⟩ := spec_comparable payload1 hkeys
  obtain ⟨n1, rl1⟩ := foldl_withEntry_nodes_rels payload1
    { Metadata.zero with Funcs := funcs, Procs := procs } hprops
  obtain ⟨n2, rl2⟩ := foldl_withEntry_nodes_rels payload2
    { Metadata.zero with Funcs := funcs, Procs := procs } hprops2
  obtain ⟨k1nd, k1mem⟩ := foldl_setAll_keys payload1 []
  obtain ⟨k2nd, k2mem⟩ := foldl_setAll_keys payload2 []
  rw [apocMetaSchema_eq c1 d1 rec1 _ hd1 hrun1, apocDecode_eq rec1 payload1 _ hrec1] at hfirst
  rw [apocMetaSchema_eq c2 d2 rec2 _ hd2 hrun2, apocDecode_eq rec2 payload2 _ hrec2, ← hall]
  cases hdec : payload1.all (fun e => entryDecodes e.2) with
  | false => simp [hdec] at hfirst
  | true =>
    simp only [hdec, cond_true, Option.map_some', Option.some.injEq, Prod.mk.injEq,
      and_true] at hfirst
    obtain ⟨_, hm1⟩ := hfirst
    subst hm1
    simp only [cond_true, Option.map_some']
    have hkperm : ((payload1.foldl
          (fun acc e => setAll (fun _ => Any.nil) (entryProperties e.2) acc) []).map
          Prod.fst).Perm
        ((payload2.foldl
          (fun acc e => setAll (fun _ => Any.nil) (entryProperties e.2) acc) []).map
          Prod.fst) := by
      refine (List.perm_ext_iff_of_nodup (k1nd (by simp)) (k2nd (by simp))).2 ?_
      intro n
      rw [k1mem n, k2mem n]
      simp only [List.map_nil, List.not_mem_nil, false_or]
      exact hnames n
    refine ⟨_, _, rfl, ?_, ?_, ?_, rfl, rfl, ?_⟩
    · simp only [Metadata.zero, List.nil_append]
      exact (sortStrings_eq_of_perm _ _ hkperm (k1nd (by simp))).symm
    · rw [n1, n2]
      simp only [Metadata.zero, List.nil_append]
      refine (sortFunc_map_eq_of_perm nodeLess nodeLess_asymm nodeLess_negtrans Node.canon
        (fun _ _ => rfl) _ _ ?_ hcn).symm
      rw [specNodes_map_canon, specNodes_map_canon]
      exact hn
    · rw [rl1, rl2]
      simp only [Metadata.zero, List.nil_append]
      refine (sortFunc_map_eq_of_perm relLess (fun a b => strLess_asymm a.Typ b.Typ)
        (fun a b c => strLess_negtrans a.Typ b.Typ c.Typ) Relationship.canon
        (fun _ _ => rfl) _ _ ?_ hcr).symm
      rw [specRels_map_canon, specRels_map_canon]
      exact hr
    · intro ks hks
      simp only [Metadata.zero, List.nil_append] at hks ⊢
      have hnd1 := k1nd (by simp)
      have hsorted := (sortFunc_perm strLess ((payload1.foldl
          (fun acc e => setAll (fun _ => Any.nil) (entryProperties e.2) acc) []).map
          Prod.fst))
      have hks2 : ks.Perm ((payload1.foldl
          (fun acc e => setAll (fun _ => Any.nil) (entryProperties e.2) acc) []).map
          Prod.fst) := hks.trans hsorted
      exact sortStrings_eq_of_perm _ _ hks2 ((hks2.nodup_iff).2 hnd1)

/-- The payloads `orderedPayload` and `reorderedPayload` are the same map in
two orders of iteration. -/
theorem samePayload_reordered : SamePayload orderedPayload reorderedPayload := by
  refine ⟨[("KNOWS", knowsEntry), ("Person", personEntry)], List.Perm.swap _ _ _, ?_⟩
  have hk : SameEntry knowsEntry knowsEntry :=
    ⟨_, _, _, _, rfl, rfl, rfl, rfl, rfl, rfl, List.Perm.refl _⟩
  have hp : SameEntry personEntry personEntryReordered :=
    ⟨_, _, _, _, rfl, rfl, rfl, rfl, rfl, rfl, List.Perm.swap _ _ _⟩
  exact List.Forall₂.cons ⟨rfl, hk⟩ (List.Forall₂.cons ⟨rfl, hp⟩ List.Forall₂.nil)

/-- C20 at a sample input: the calls on `orderedPayload` and on
`reorderedPayload` both return without error, with the same Props, Nodes and
Rels. -/
theorem apocMetaSchema_deterministic_witness :
    ∃ r1 m1 r2 m2,
      apocMetaSchema (payloadConn orderedPayload) { Metadata.zero with Funcs := [], Procs := [] } =
        some (r1, m1, none) ∧
      apocMetaSchema (payloadConn reorderedPayload)
        { Metadata.zero with Funcs := [], Procs := [] } = some (r2, m2, none) ∧
      m2.Props = m1.Props ∧
      m2.Nodes.map Node.canon = m1.Nodes.map Node.canon ∧
      m2.Rels.map Relationship.canon = m1.Rels.map Relationship.canon ∧
      m2.Funcs = m1.Funcs ∧ m2.Procs = m1.Procs ∧
      (∀ ks : List String, ks.Perm m1.Props → sortStrings ks = m1.Props) := by
  have h : ∃ r1 m1, apocMetaSchema (payloadConn orderedPayload)
      { Metadata.zero with Funcs := [], Procs := [] } = some (r1, m1, none) := ⟨_, _, rfl⟩
  obtain ⟨r1, m1, h⟩ := h
  obtain ⟨r2, m2, h2⟩ := apocMetaSchema_deterministic (payloadConn orderedPayload)
    (payloadConn reorderedPayload)
    (runDriver (fun _ => .ok [payloadRecord orderedPayload]))
    (runDriver (fun _ => .ok [payloadRecord reorderedPayload]))
    (payloadRecord orderedPayload) (payloadRecord reorderedPayload)
    orderedPayload reorderedPayload [] [] rfl rfl rfl rfl rfl rfl (by decide)
    (by
      intro e he
      simp only [orderedPayload, List.mem_cons, List.mem_singleton, List.not_mem_nil,
        or_false] at he
      rcases he with h | h <;> subst h <;> decide)
    samePayload_reordered r1 m1 h
  exact ⟨r1, m1, r2, m2, h, h2⟩

/-- The two sample calls evaluated: the same property names, and the same
Nodes and Rels once their maps are listed by key. -/
theorem apocMetaSchema_reordered_evaluated :
    (apocMetaSchema (payloadConn reorderedPayload) Metadata.zero).map
        (fun r => (r.2.1.Props, r.2.1.Nodes.map Node.canon,
          r.2.1.Rels.map Relationship.canon, r.2.2)) =
      (apocMetaSchema (payloadConn orderedPayload) Metadata.zero).map
        (fun r => (r.2.1.Props, r.2.1.Nodes.map Node.canon,
          r.2.1.Rels.map Relationship.canon, r.2.2)) ∧
    (apocMetaSchema (payloadConn orderedPayload) Metadata.zero).map
        (fun r => (r.2.1.Props, r.2.1.Nodes.map (fun n => n.Labels),
          r.2.1.Rels.map (fun x => x.Typ))) =
      some (["id", "name", "since"], [["Person"]], ["KNOWS"]) := by
  decide

end Roland
